import Mathlib

/-!
Verification of the qudi `core/Manager.py` module manager against its
specification.  Python dicts are modelled as insertion-ordered association
lists with unique keys (`List (String × α)`); Python object references are
modelled by their coordinates in the module tree; fallible Python code
(statements that can raise) is modelled with `Except`, where an error value
carries the state at the moment the exception was raised (mutations performed
before a `raise` persist in Python).
-/

set_option maxHeartbeats 1000000

namespace Qudi

/-! ## Python dict primitives (insertion-ordered association lists) -/

/-- Python `d[k]` / `d.get(k)`: value of the first entry whose key is `k`. -/
def dget {α : Type} (d : List (String × α)) (k : String) : Option α :=
  (d.find? (fun p => p.1 == k)).map (fun p => p.2)

/-- Python `k in d`. -/
def dmem {α : Type} (d : List (String × α)) (k : String) : Bool :=
  d.any (fun p => p.1 == k)

/-- Python `d[k] = v`: replaces the value in place if the key is present
(CPython dicts keep the key's insertion position), appends otherwise. -/
def dset {α : Type} (d : List (String × α)) (k : String) (v : α) : List (String × α) :=
  if dmem d k then d.map (fun p => if p.1 == k then (k, v) else p) else d ++ [(k, v)]

/-- The keys of a dict, in insertion order (Python `list(d)`). -/
def keysOf {α : Type} (d : List (String × α)) : List String := d.map (fun p => p.1)

/-! ## `Manager.toposort` (Manager.py lines 730-818)

`deps` is the dependency dict (`a: [b, c]` means a depends on b and c),
`cost` the optional per-node cost dict. -/

/-- Manager.py line 776-778: the inner loop of the normalization step, giving
every node referenced in a dependency list an (empty) entry of its own. -/
def addMissing (d : List (String × List String)) : List String → List (String × List String)
  | [] => d
  | k2 :: ks => addMissing (if dmem d k2 then d else d ++ [(k2, [])]) ks

/-- Manager.py lines 772-778: `deps = {}; for k, v in deps0.items(): deps[k] = v[:];
for k2 in v: if k2 not in deps: deps[k2] = []`. -/
def normalizeFrom (d : List (String × List String)) :
    List (String × List String) → List (String × List String)
  | [] => d
  | (k, v) :: rest => normalizeFrom (addMissing (dset d k v) v) rest

def toposortNormalize (deps0 : List (String × List String)) : List (String × List String) :=
  normalizeFrom [] deps0

/-- Insertion step of a stable descending sort by `f`; an element is placed
after every earlier element whose key is strictly greater, and before the
first element whose key is less than or equal (so that elements with equal
keys keep their original relative order). -/
def insertDesc (f : String → Int) (x : String) : List String → List String
  | [] => [x]
  | y :: ys => if f x < f y then y :: insertDesc f x ys else x :: y :: ys

/-- Python `ready.sort(key=key, reverse=True)`: the stable sort of `ready` by
`key`, descending.  (Python's `list.sort` is stable, and `reverse=True` does
not reorder elements that compare equal.) -/
def sortDesc (f : String → Int) : List String → List String
  | [] => []
  | x :: xs => insertDesc f x (sortDesc f xs)

/-- Manager.py lines 811-816: `del deps[ready[0]]` followed by
`for v in deps.values(): try: v.remove(ready[0]) except ValueError: pass`.
`list.remove` deletes only the first occurrence. -/
def removeNode (d : List (String × List String)) (r : String) :
    List (String × List String) :=
  (d.filter (fun p => p.1 != r)).map (fun p => (p.1, p.2.erase r))

def cycleMsg : String := "Cannot resolve requested device configure/start order."

/-- Manager.py line 796: `ready = [k for k in deps if len(deps[k]) == 0]`. -/
def readyOf (d : List (String × List String)) : List String :=
  (d.filter (fun q => q.2.isEmpty)).map (fun q => q.1)

/-- Manager.py lines 805-810: `ready[0]` after the optional stable descending
sort by branch cost (`if key is not None: ready.sort(key=key, reverse=True)`).
`ready0` is the full ready list and `r0` its (known) head, so the `headD`
default is never used. -/
def pickReady (key : Option (String → Int)) (r0 : String) (ready0 : List String) : String :=
  match key with
  | some f => (sortDesc f ready0).headD r0
  | none => r0

/-- Manager.py lines 793-818, the `while len(deps) > 0` elimination loop.
Each iteration deletes exactly one key from the dict, so the loop runs at
most (number of keys) iterations; the callers below pass `fuel = deps.length`,
which therefore can never be exhausted before the dict is empty, and the
`fuel = 0` case (returning the same cycle error the loop would eventually
report) is unreachable from them. -/
def toposortIter (key : Option (String → Int)) :
    Nat → List (String × List String) → Except String (List String)
  | _, [] => .ok []
  | 0, _ :: _ => .error cycleMsg
  | fuel + 1, p :: ps =>
    match readyOf (p :: ps) with
    | [] => .error cycleMsg
    | r0 :: rs =>
      match toposortIter key fuel
          (removeNode (p :: ps) (pickReady key r0 (r0 :: rs))) with
      | .error e => .error e
      | .ok rest => .ok (pickReady key r0 (r0 :: rs) :: rest)

/-- Python `set(n)` for a string `n` — Manager.py line 784 writes
`allDeps = {n: set(n) for n in order}`, and `set` applied to a *string*
yields the set of its characters (as one-character strings), not the
singleton `{n}`.  Sets are represented as duplicate-free lists; since the
only consumers are membership and a sum of integers, any enumeration order
is observationally equal to Python's unordered set. -/
def charSet (n : String) : List String :=
  (n.toList.map (fun ch => String.mk [ch])).eraseDups

/-- Python set union `a | b` (again: enumeration order of the result is
irrelevant to every consumer). -/
def sunion (a b : List String) : List String :=
  a ++ b.filter (fun x => !a.contains x)

/-- Manager.py lines 784-787: seed `allDeps` with `{n: set(n) for n in order}`
and then, walking `order` in reverse, `allDeps[n2] |= allDeps.get(n, set())`
for every `n2` in `deps.get(n, [])`.  (`allDeps[n2] |= …` would raise a
`KeyError` for `n2` not a key; in every call made by `toposort`, `order` is a
permutation of the keys of the normalized `deps`, so every `n2` is a key and
`dset` coincides with the in-place update.) -/
def computeAllDeps (deps : List (String × List String)) (order : List String) :
    List (String × List String) :=
  (order.reverse).foldl
    (fun ad n =>
      ((dget deps n).getD []).foldl
        (fun ad n2 => dset ad n2 (sunion ((dget ad n2).getD []) ((dget ad n).getD []))) ad)
    (order.map (fun n => (n, charSet n)))

/-- Python `cost.get(x, 0)`. -/
def costGet (c : List (String × Int)) (x : String) : Int := (dget c x).getD 0

/-- Python `sum([cost.get(x, 0) for x in s])`. -/
def sumCost (c : List (String × Int)) (s : List String) : Int :=
  (s.map (costGet c)).foldl (· + ·) 0

/-- Manager.py lines 789-790: `totalCost = {n: sum([cost.get(x, 0) for x in
allDeps[n]]) for n in allDeps}; key = lambda x: totalCost.get(x, 0)`. -/
def totalCostFun (c : List (String × Int)) (ad : List (String × List String)) :
    String → Int :=
  fun x =>
    match dget ad x with
    | some s => sumCost c s
    | none => 0

/-- Manager.py line 783: the recursive `Manager.toposort(deps)` call made with
the already-normalized dict and `cost=None`. -/
def toposortNoCost (deps0 : List (String × List String)) : Except String (List String) :=
  let deps := toposortNormalize deps0
  toposortIter none deps.length deps

/-- Manager.py lines 730-818, `Manager.toposort(deps, cost=None)`. -/
def toposort (deps0 : List (String × List String))
    (cost : Option (List (String × Int))) : Except String (List String) :=
  let deps := toposortNormalize deps0
  match cost with
  | none => toposortIter none deps.length deps
  | some c =>
    match toposortNoCost deps with
    | .error e => .error e
    | .ok order =>
      toposortIter (some (totalCostFun c (computeAllDeps deps order))) deps.length deps

/-! ## Spec-side definition of branch cost (for comparison with the code)

The spec (section 4.1 and the glossary) defines the total branch cost of a
node as the sum of `cost` over that node's transitive downstream set: all
nodes that transitively depend on it, including the node itself.  The
following definitions follow the spec's words, not the code, and exist only
to be compared against `totalCostFun`. -/

/-- One step of the spec's "transitively depends on" closure: add every node
that has a direct dependency already inside the set. -/
def downstreamStep (deps : List (String × List String)) (s : List String) :
    List String :=
  s ++ (deps.filter
    (fun p => !s.contains p.1 && p.2.any (fun m => s.contains m))).map (fun p => p.1)

def downstreamIter (deps : List (String × List String)) :
    Nat → List String → List String
  | 0, s => s
  | fuel + 1, s => downstreamIter deps fuel (downstreamStep deps s)

/-- The spec's transitive downstream set of `n`: all nodes that transitively
depend on `n`, including `n` itself.  Iterating the one-step closure
`deps.length` times reaches the fixed point. -/
def downstreamSet (deps : List (String × List String)) (n : String) : List String :=
  downstreamIter deps deps.length [n]

/-- The spec's branch cost: "sum of per-node costs over a node's transitive
downstream set in the dependency graph". -/
def specBranchCost (deps : List (String × List String)) (c : List (String × Int))
    (n : String) : Int :=
  sumCost c (downstreamSet deps n)

/-! ## The Manager module tree

`Manager.__init__` (lines 74-89) builds `self.tree` with `defined` and
`loaded` sub-dicts for exactly the categories `hardware`, `gui`, `logic`,
and `start` sub-dicts for only `gui` and `logic` — there is no
`tree['start']['hardware']`. -/

/-- A Python value observed through `isinstance(x, str)`: either a string or
something else. -/
inductive CVal where
  | str (s : String)
  | other
deriving DecidableEq

/-- One entry of a module's `connector['in']` table.  `notDict` models a
value failing the `isinstance(…, OrderedDict)` check; for a dict,
`cls = none` models a missing `'class'` key and `obj` models the `'object'`
key (`none` = key missing, `some none` = `None`, `some (some ref)` = bound
to the loaded module at tree coordinates `ref`). -/
inductive InSlot where
  | notDict
  | dict (cls : Option CVal) (obj : Option (Option (String × String)))
deriving DecidableEq

/-- One entry of a module's `connector['out']` table. -/
inductive OutSlot where
  | notDict
  | dict (cls : Option CVal)
deriving DecidableEq

/-- A loaded module instance: its `getState()` result, whether its external
`activate()` hook raises (the hook body lives in Base.py, outside the core),
and its declared connector table (`none` = no `'in'`/`'out'` key). -/
structure LoadedMod where
  state : String
  activateRaises : Bool
  inConns : Option (List (String × InSlot))
  outConns : Option (List (String × OutSlot))
deriving DecidableEq

/-- The `connect` value of a defined module's configuration: absent, not an
OrderedDict, or a dict of `local_connector ↦ "target.connector"` entries. -/
inductive ConnCfg where
  | notDict
  | dict (entries : List (String × CVal))
deriving DecidableEq

/-- A defined module's configuration entry: whether it has a `'module'` key,
and its `connect` value (`none` = no `'connect'` key). -/
structure DefinedMod where
  hasModuleKey : Bool
  connect : Option ConnCfg
deriving DecidableEq

/-- The parts of `self.tree` the verified operations touch. -/
structure Tree where
  definedHardware : List (String × DefinedMod)
  definedLogic : List (String × DefinedMod)
  definedGui : List (String × DefinedMod)
  loadedHardware : List (String × LoadedMod)
  loadedLogic : List (String × LoadedMod)
  loadedGui : List (String × LoadedMod)
  startGui : List (String × DefinedMod)
  startLogic : List (String × DefinedMod)
deriving DecidableEq

/-- `self.tree['defined'][base]`: only the three categories exist; any other
base raises KeyError, modelled by `none`. -/
def Tree.defined (t : Tree) (base : String) : Option (List (String × DefinedMod)) :=
  if base = "hardware" then some t.definedHardware
  else if base = "logic" then some t.definedLogic
  else if base = "gui" then some t.definedGui
  else none

/-- `self.tree['loaded'][base]`. -/
def Tree.loaded (t : Tree) (base : String) : Option (List (String × LoadedMod)) :=
  if base = "hardware" then some t.loadedHardware
  else if base = "logic" then some t.loadedLogic
  else if base = "gui" then some t.loadedGui
  else none

/-- `self.tree['start'][base]`: `__init__` creates only the `gui` and
`logic` start tables (lines 83-88), so `tree['start']['hardware']` raises
KeyError. -/
def Tree.start (t : Tree) (base : String) : Option (List (String × DefinedMod)) :=
  if base = "gui" then some t.startGui
  else if base = "logic" then some t.startLogic
  else none

/-- Replacing `self.tree['loaded'][base]` wholesale (used to model in-place
mutation of entries of that dict). -/
def Tree.setLoaded (t : Tree) (base : String) (tbl : List (String × LoadedMod)) : Tree :=
  if base = "hardware" then { t with loadedHardware := tbl }
  else if base = "logic" then { t with loadedLogic := tbl }
  else if base = "gui" then { t with loadedGui := tbl }
  else t

/-- Qt signals the verified operations can emit. -/
inductive Signal where
  | configChanged
  | modulesChanged
  | baseDirChanged
deriving DecidableEq

/-! ## `Manager.activateModule` (lines 667-684) -/

/-- Observable outcome of `activateModule`: whether the module's `activate()`
hook was invoked, whether an error was logged, and whether an exception
escaped the call (`some` = the exception's kind). -/
structure ActOut where
  hookInvoked : Bool
  errLogged : Bool
  raised : Option String
deriving DecidableEq

/-- Manager.activateModule (lines 667-684).  Line 674 evaluates
`self.tree['loaded'][base][key].getState() != 'deactivated'` first; only
when that is true does Python evaluate `key in self.tree['start'][base]`,
which raises KeyError when `base` has no startup table (i.e. for
`'hardware'`).  Line 676 re-tests the state and logs an error; otherwise
lines 680-684 invoke `activate()` inside `try/except`, logging (never
re-raising) any hook failure. -/
def activateModule (t : Tree) (base key : String) : ActOut :=
  match t.loaded base with
  | none => { hookInvoked := false, errLogged := false, raised := some "KeyError" }
  | some tbl =>
    match dget tbl key with
    | none => { hookInvoked := false, errLogged := false, raised := some "KeyError" }
    | some lm =>
      if lm.state ≠ "deactivated" then
        match t.start base with
        | none => { hookInvoked := false, errLogged := false, raised := some "KeyError" }
        | some stbl =>
          if dmem stbl key then
            { hookInvoked := false, errLogged := false, raised := none }
          else
            { hookInvoked := false, errLogged := true, raised := none }
      else
        if lm.activateRaises then
          { hookInvoked := true, errLogged := true, raised := none }
        else
          { hookInvoked := true, errLogged := false, raised := none }

/-! ## `Manager.configureModule` (lines 456-509) -/

/-- The loaded python module object, observed through
`getattr(moduleObject, className)` and `issubclass(modclass, Base)`: for each
class name it may define, whether that class derives from `Base`. -/
structure PyModuleObj where
  classes : List (String × Bool)
deriving DecidableEq

/-- Manager.configureModule (lines 456-509).  Raises (error carries the
state at the raise, which is always the unchanged input state since nothing
is mutated before any raise) when: the category is not one of the three
(line 482), an instance of that name is already loaded (line 479), the class
is missing from the module (`getattr`, line 489), the class does not derive
from `Base` (line 492), or the externally supplied constructor raises
(line 496, parameter `ctorRaises`).  Otherwise registers the new instance
(line 503) and emits `sigModulesChanged` (line 508); the second
`baseName in ['hardware','logic','gui']` check (lines 501-506) repeats the
first one and cannot fail. -/
def configureModule (t : Tree) (moduleObject : PyModuleObj)
    (baseName className instanceName : String) (inst : LoadedMod)
    (ctorRaises : Bool) : Except (Tree × String) (Tree × List Signal) :=
  if baseName = "hardware" ∨ baseName = "logic" ∨ baseName = "gui" then
    match t.loaded baseName with
    | none => .error (t, "KeyError")
    | some tbl =>
      if dmem tbl instanceName then
        .error (t, "already exists")
      else
        match dget moduleObject.classes className with
        | none => .error (t, "AttributeError")
        | some isBase =>
          if ¬ isBase then .error (t, "Bad inheritance")
          else if ctorRaises then .error (t, "constructor raised")
          else .ok (t.setLoaded baseName (dset tbl instanceName inst),
                    [Signal.modulesChanged])
  else .error (t, "cheat category")

/-! ## `Manager.connectModule` (lines 511-637) -/

/-- The distinct validation failures `connectModule` logs (each one, in the
source, a `logMsg(…, msgType='error')` followed by `return`). -/
inductive ConnErr where
  | notLoaded
  | noInConnectors
  | connectNotDict
  | inConnUndeclared
  | inConnNotDict
  | noClassKey
  | classNotStr
  | noObjectKey
  | alreadyConnected
  | valueNotStr
  | noDot
  | ambiguousTarget
  | targetNotFound
  | noOutConnectors
  | outUndeclared
  | outNotDict
  | outNoClass
  | outClassNotStr
deriving DecidableEq

/-- Log entries `connectModule` produces: an error, or the line-634 status
message recording a successful binding. -/
inductive ConnLog where
  | err (e : ConnErr)
  | connected (c destbase destmod destcon : String)
deriving DecidableEq

/-- Python `connections[c].split('.')[0]`. -/
def splitHead (s : String) : String := (s.splitOn ".").headD ""

/-- Python `connections[c].split('.')[1]` (well defined whenever `s`
contains a dot). -/
def splitSecond (s : String) : String := (s.splitOn ".").getD 1 ""

/-- Python `destmod in self.tree['loaded'][b]` for the categories searched
by connectModule (lines 586, 594, 596). -/
def loadedMem (t : Tree) (b : String) (x : String) : Bool :=
  match t.loaded b with
  | some tbl => dmem tbl x
  | none => false

/-- Manager.connectModule lines 605-631: the checks against the resolved
target module's OUT connector table.  (The two `targetNotFound` arms are
unreachable from `entryCheck`, which resolves `destbase` by membership
before calling.) -/
def checkOut (t : Tree) (destbase destmod destcon : String) :
    Except ConnErr (String × String × String) :=
  match t.loaded destbase with
  | none => .error ConnErr.targetNotFound
  | some dtbl =>
    match dget dtbl destmod with
    | none => .error ConnErr.targetNotFound
    | some dlm =>
      match dlm.outConns with
      | none => .error ConnErr.noOutConnectors
      | some outputs =>
        match dget outputs destcon with
        | none => .error ConnErr.outUndeclared
        | some OutSlot.notDict => .error ConnErr.outNotDict
        | some (OutSlot.dict none) => .error ConnErr.outNoClass
        | some (OutSlot.dict (some CVal.other)) => .error ConnErr.outClassNotStr
        | some (OutSlot.dict (some (CVal.str _))) => .ok (destbase, destmod, destcon)

/-- Manager.connectModule lines 544-631: the validation chain for one
`c: connections[c]` entry, with the checks in the code's order, returning
the resolved `(destbase, destmod, destcon)` when all pass.  Line 545
re-reads `self.tree['loaded'][base][mkey].connector['in']` on every
iteration, so the module lookup is repeated here; its failure arms are
unreachable from `connectModule`, which establishes them before the loop and
whose loop body never removes keys. -/
def entryCheck (t : Tree) (base mkey c : String) (v : CVal) :
    Except ConnErr (String × String × String) :=
  match t.loaded base with
  | none => .error ConnErr.notLoaded
  | some tbl =>
    match dget tbl mkey with
    | none => .error ConnErr.notLoaded
    | some lm =>
      match lm.inConns with
      | none => .error ConnErr.noInConnectors
      | some connectorIn =>
        match dget connectorIn c with
        | none => .error ConnErr.inConnUndeclared
        | some InSlot.notDict => .error ConnErr.inConnNotDict
        | some (InSlot.dict none _) => .error ConnErr.noClassKey
        | some (InSlot.dict (some CVal.other) _) => .error ConnErr.classNotStr
        | some (InSlot.dict (some (CVal.str _)) none) => .error ConnErr.noObjectKey
        | some (InSlot.dict (some (CVal.str _)) (some (some _))) =>
          .error ConnErr.alreadyConnected
        | some (InSlot.dict (some (CVal.str _)) (some none)) =>
          match v with
          | CVal.other => .error ConnErr.valueNotStr
          | CVal.str s =>
            if ¬ s.contains '.' then .error ConnErr.noDot
            else if loadedMem t "hardware" (splitHead s)
                && loadedMem t "logic" (splitHead s) then
              .error ConnErr.ambiguousTarget
            else if loadedMem t "hardware" (splitHead s) then
              checkOut t "hardware" (splitHead s) (splitSecond s)
            else if loadedMem t "logic" (splitHead s) then
              checkOut t "logic" (splitHead s) (splitSecond s)
            else .error ConnErr.targetNotFound

/-- Manager.connectModule line 637: `connectorIn[c]['object'] =
self.tree['loaded'][destbase][destmod]`.  The stored Python object reference
is modelled by the target instance's coordinates `(destbase, destmod)` in
the loaded-module tree.  The fall-through arms (module or connector
missing, connector not a dict) are unreachable: binding only happens after
`entryCheck` succeeds. -/
def bindConn (t : Tree) (base mkey c : String) (r : String × String) : Tree :=
  match t.loaded base with
  | none => t
  | some tbl =>
    match dget tbl mkey with
    | none => t
    | some lm =>
      match lm.inConns with
      | none => t
      | some connectorIn =>
        match dget connectorIn c with
        | some (InSlot.dict cls _) =>
          let newIn := dset connectorIn c (InSlot.dict cls (some (some r)))
          t.setLoaded base (dset tbl mkey { lm with inConns := some newIn })
        | _ => t

/-- Manager.connectModule lines 544-637: the `for c in connections` loop.
A failed check logs its error and returns immediately (every failure path
in the loop body ends in `return`, aborting the whole call); a successful
entry logs the line-634 status message, binds the connector and continues. -/
def processEntries (t : Tree) (base mkey : String) (log : List ConnLog) :
    List (String × CVal) → Tree × List ConnLog
  | [] => (t, log)
  | (c, v) :: rest =>
    match entryCheck t base mkey c v with
    | .error e => (t, log ++ [ConnLog.err e])
    | .ok (db, dm, dc) =>
      processEntries (bindConn t base mkey c (db, dm)) base mkey
        (log ++ [ConnLog.connected c db dm dc]) rest

/-- Manager.connectModule (lines 511-637).  An `Except.error` models an
exception escaping the call, carrying the state and log at the raise.
KeyError paths: looking up an unknown base or an undefined `mkey`
(line 518); and — because the log messages at lines 520-522 (module not
loaded), 527-530 (no IN connectors) and 533-535 (the missing-`'module'`-key
report itself) all format `thismodule['module']` — reaching any of those
three paths with no `'module'` key in the defined entry raises KeyError
instead of logging. -/
def connectModule (t : Tree) (base mkey : String) :
    Except (Tree × List ConnLog × String) (Tree × List ConnLog) :=
  match t.defined base with
  | none => .error (t, [], "KeyError")
  | some dtbl =>
    match dget dtbl mkey with
    | none => .error (t, [], "KeyError")
    | some thismodule =>
      match t.loaded base with
      | none => .error (t, [], "KeyError")
      | some tbl =>
        if ¬ dmem tbl mkey then
          if thismodule.hasModuleKey then .ok (t, [ConnLog.err ConnErr.notLoaded])
          else .error (t, [], "KeyError")
        else
          match thismodule.connect with
          | none => .ok (t, [])
          | some conncfg =>
            match dget tbl mkey with
            | none => .error (t, [], "KeyError")
            | some lm =>
              match lm.inConns with
              | none =>
                if thismodule.hasModuleKey then
                  .ok (t, [ConnLog.err ConnErr.noInConnectors])
                else .error (t, [], "KeyError")
              | some _ =>
                if ¬ thismodule.hasModuleKey then .error (t, [], "KeyError")
                else
                  match conncfg with
                  | ConnCfg.notDict => .ok (t, [ConnLog.err ConnErr.connectNotDict])
                  | ConnCfg.dict entries =>
                    .ok (processEntries t base mkey [] entries)

/-- The `'object'` field of an IN connector: `some none` = declared and
unbound, `some (some ref)` = bound to the module at coordinates `ref`,
`none` = the module, its IN table, the connector, the dict shape or the
`'object'` key is missing. -/
def connObj (t : Tree) (base mkey c : String) : Option (Option (String × String)) :=
  match t.loaded base with
  | none => none
  | some tbl =>
    match dget tbl mkey with
    | none => none
    | some lm =>
      match lm.inConns with
      | none => none
      | some connectorIn =>
        match dget connectorIn c with
        | some (InSlot.dict _ obj) => obj
        | _ => none

/-- The tree after a `connectModule` call, whether it returned or raised. -/
def resTree (r : Except (Tree × List ConnLog × String) (Tree × List ConnLog)) : Tree :=
  match r with
  | .ok (t, _) => t
  | .error (t, _, _) => t

/-- The log of a `connectModule` call, whether it returned or raised. -/
def resLog (r : Except (Tree × List ConnLog × String) (Tree × List ConnLog)) :
    List ConnLog :=
  match r with
  | .ok (_, l) => l
  | .error (_, l, _) => l

/-- The tree state after a `configureModule` call, whether it returned or
raised. -/
def cfgTreeOf (r : Except (Tree × String) (Tree × List Signal)) : Tree :=
  match r with
  | .ok (t, _) => t
  | .error (t, _) => t

/-- Target module name for a connect entry value (the part before the dot). -/
def destModOf (v : CVal) : String :=
  match v with
  | CVal.str s => splitHead s
  | CVal.other => ""

/-- Target connector name for a connect entry value (the part after the
first dot). -/
def destConOf (v : CVal) : String :=
  match v with
  | CVal.str s => splitSecond s
  | CVal.other => ""

/-- The category the target resolves to (lines 594-597: hardware is searched
first). -/
def targetBaseOf (t : Tree) (v : CVal) : String :=
  if loadedMem t "hardware" (destModOf v) then "hardware" else "logic"

/-- The claim's notion of a well-formed connect entry `c : v` of module
`mkey` in category `base`: the module is loaded and declares an IN connector
named `c` whose `'class'` is a string and whose `'object'` is `None`; `v` is
a string containing a dot; the target name (before the dot) is loaded in
exactly one of hardware/logic; and that target declares the requested OUT
connector (after the dot) with a string `'class'`. -/
def entryWellFormed (t : Tree) (base mkey c : String) (v : CVal) : Bool :=
  match t.loaded base with
  | none => false
  | some tbl =>
    match dget tbl mkey with
    | none => false
    | some lm =>
      match lm.inConns with
      | none => false
      | some connectorIn =>
        match dget connectorIn c with
        | some (InSlot.dict (some (CVal.str _)) (some none)) =>
          match v with
          | CVal.other => false
          | CVal.str s =>
            s.contains '.' &&
            (loadedMem t "hardware" (splitHead s) != loadedMem t "logic" (splitHead s)) &&
            (match t.loaded (targetBaseOf t v) with
             | none => false
             | some dtbl =>
               match dget dtbl (splitHead s) with
               | none => false
               | some dlm =>
                 match dlm.outConns with
                 | none => false
                 | some outputs =>
                   match dget outputs (splitSecond s) with
                   | some (OutSlot.dict (some (CVal.str _))) => true
                   | _ => false)
        | _ => false

/-! ## `Manager.setBaseDir` and `Manager.configure` (lines 257-339, 418-432) -/

/-- The attribute lookup `os.path.dirName` performed by `Manager.setBaseDir`
at line 424: Python's `os.path` module defines `dirname` (lower-case n) but
no attribute `dirName`, so the lookup raises AttributeError for every
input. -/
def osPathDirName (_path : String) : Except String String :=
  .error "AttributeError: module os.path has no attribute dirName"

/-- The pieces of manager state that `configure` touches. -/
inductive CfgVal where
  | dictV (kvs : List (String × String))
  | scalarV (s : String)
deriving DecidableEq

structure MgrState where
  tree : Tree
  config : List (String × CfgVal)
  baseDir : Option String
  disableDevs : List String
  disableAllDevs : Bool
deriving DecidableEq

/-- Manager.setBaseDir (lines 418-432).  The call
`dirName = os.path.dirName(path)` raises before anything is assigned; the
remainder (the `os.makedirs` filesystem call, which does not touch manager
state, the assignment to `self.baseDir` and the conditional
`sigBaseDirChanged` emission) is transcribed after the fallible step exactly
as in the source, although it is dead code. -/
def setBaseDir (st : MgrState) (path : String) :
    Except String (MgrState × List Signal) := do
  let oldBaseDir := st.baseDir
  let dirName ← osPathDirName path
  let st2 : MgrState := { st with baseDir := some dirName }
  if oldBaseDir ≠ some dirName then
    return (st2, [Signal.baseDirChanged])
  else
    return (st2, [])

/-- One top-level key of a configuration document, with the payload shape
the config-file parser produces for it (sections are dicts; `startup` maps
sub-keys to module tables; unrecognized keys carry a dict or a scalar). -/
inductive CfgTop where
  | hardware (ms : List (String × DefinedMod))
  | logic (ms : List (String × DefinedMod))
  | gui (ms : List (String × DefinedMod))
  | startup (sub : List (String × List (String × DefinedMod)))
  | globalSec (opts : List (String × String))
  | otherDict (key : String) (kvs : List (String × String))
  | otherScalar (key : String) (s : String)
deriving DecidableEq

/-- The `if 'module' in …` filter used by every category branch of
`configure`: entries without a `'module'` key are skipped with a warning. -/
def mergeDefined (tbl : List (String × DefinedMod))
    (ms : List (String × DefinedMod)) : List (String × DefinedMod) :=
  ms.foldl (fun tbl p => if p.2.hasModuleKey then dset tbl p.1 p.2 else tbl) tbl

/-- Manager.configure lines 317-324, the `for m in cfg['global']` loop.
`storageDir` calls `setBaseDir` (whose AttributeError escapes to the per-key
handler, carrying the state and signals accumulated so far); `useOpenGL`
forwards `cfg['global']['useOpenGl']` — note the misspelt lower-case final
letter — to pyqtgraph, raising KeyError unless that exact key exists (the
external call itself does not touch manager state); other options are
ignored. -/
def applyGlobalOpts (opts : List (String × String)) :
    MgrState → List Signal → List (String × String) →
    Except (MgrState × List Signal × String) (MgrState × List Signal)
  | st, sigs, [] => .ok (st, sigs)
  | st, sigs, (m, v) :: rest =>
    if m = "storageDir" then
      match setBaseDir st v with
      | .error e => .error (st, sigs, e)
      | .ok (st2, s2) => applyGlobalOpts opts st2 (sigs ++ s2) rest
    else if m = "useOpenGL" then
      if dmem opts "useOpenGl" then applyGlobalOpts opts st sigs rest
      else .error (st, sigs, "KeyError")
    else applyGlobalOpts opts st sigs rest

/-- Manager.configure lines 271-335: processing of one top-level key.
`hardware` additionally skips devices disabled by command-line options
(lines 276-278); `startup` fills the `gui`/`logic` start tables and ignores
other sub-keys; unrecognized keys are merged into the config bag — dicts
key-by-key into an existing dict (a fresh one if the key is new; if the
existing value is a scalar, the first `self.tree['config'][key][key2] = …`
assignment raises TypeError), scalars by overwriting. -/
def configureKey (st : MgrState) :
    CfgTop → Except (MgrState × List Signal × String) (MgrState × List Signal)
  | CfgTop.hardware ms =>
    let newHw := ms.foldl (fun tbl p =>
        if st.disableAllDevs || st.disableDevs.contains p.1 then tbl
        else if p.2.hasModuleKey then dset tbl p.1 p.2 else tbl)
      st.tree.definedHardware
    .ok ({ st with tree := { st.tree with definedHardware := newHw } }, [])
  | CfgTop.logic ms =>
    let newLogic := mergeDefined st.tree.definedLogic ms
    .ok ({ st with tree := { st.tree with definedLogic := newLogic } }, [])
  | CfgTop.gui ms =>
    let newGui := mergeDefined st.tree.definedGui ms
    .ok ({ st with tree := { st.tree with definedGui := newGui } }, [])
  | CfgTop.startup sub =>
    let step := fun (st2 : MgrState) (p : String × List (String × DefinedMod)) =>
      if p.1 = "gui" then
        let ng := mergeDefined st2.tree.startGui p.2
        { st2 with tree := { st2.tree with startGui := ng } }
      else if p.1 = "logic" then
        let nl := mergeDefined st2.tree.startLogic p.2
        { st2 with tree := { st2.tree with startLogic := nl } }
      else st2
    .ok (sub.foldl step st, [])
  | CfgTop.globalSec opts => applyGlobalOpts opts st [] opts
  | CfgTop.otherDict key kvs =>
    (match dget st.config key with
     | some (CfgVal.scalarV _) =>
       if kvs.isEmpty then .ok (st, [])
       else .error (st, [], "TypeError")
     | some (CfgVal.dictV old) =>
       let nv := CfgVal.dictV (kvs.foldl (fun o p => dset o p.1 p.2) old)
       .ok ({ st with config := dset st.config key nv }, [])
     | none =>
       let nv := CfgVal.dictV (kvs.foldl (fun o p => dset o p.1 p.2) [])
       .ok ({ st with config := dset st.config key nv }, []))
  | CfgTop.otherScalar key s =>
    .ok ({ st with config := dset st.config key (CfgVal.scalarV s) }, [])

/-- Manager.configure (lines 257-339).  Each top-level key is processed
inside its own `try/except` (lines 271-272, 336-337): an exception is
printed and the loop continues from the state as of the raise.
`sigConfigChanged` is emitted unconditionally at the end (line 339). -/
def configure (st : MgrState) (cfg : List CfgTop) : MgrState × List Signal :=
  let res := cfg.foldl
    (fun (acc : MgrState × List Signal) entry =>
      match configureKey acc.1 entry with
      | .ok (st2, s2) => (st2, acc.2 ++ s2)
      | .error (st2, s2, _) => (st2, acc.2 ++ s2))
    (st, [])
  (res.1, res.2 ++ [Signal.configChanged])

/-! ## Concrete fixtures used by witnesses and counterexamples -/

def emptyTree : Tree := ⟨[], [], [], [], [], [], [], []⟩

/-- A loaded module sitting in state `activated`. -/
def activatedMod : LoadedMod := ⟨"activated", false, none, none⟩

/-- A loaded module in state `deactivated` whose activation hook succeeds. -/
def deactivatedMod : LoadedMod := ⟨"deactivated", false, none, none⟩

/-- A tree with one loaded, already-activated hardware module. -/
def c5HardwareTree : Tree := { emptyTree with loadedHardware := [("cam", activatedMod)] }

/-- A tree with one activated logic module that is in the startup set. -/
def c5StartTree : Tree :=
  { emptyTree with loadedLogic := [("lm", activatedMod)],
                   startLogic := [("lm", ⟨true, none⟩)] }

/-- A tree with one activated logic module not in the startup set. -/
def c5NoStartTree : Tree := { emptyTree with loadedLogic := [("lm", activatedMod)] }

/-- A tree with one deactivated hardware module. -/
def c5DeactTree : Tree := { emptyTree with loadedHardware := [("hw1", deactivatedMod)] }

/-- A python module exposing one `Base`-derived class `C`. -/
def pyModEx : PyModuleObj := ⟨[("C", true)]⟩

/-- A deactivated hardware module declaring the OUT connector
`out1 : HwIface`. -/
def hwOutMod : LoadedMod :=
  ⟨"deactivated", false, none, some [("out1", OutSlot.dict (some (CVal.str "HwIface")))]⟩

/-- A deactivated gui module declaring the unbound IN connector
`src : HwIface`. -/
def guiInMod : LoadedMod :=
  ⟨"deactivated", false,
   some [("src", InSlot.dict (some (CVal.str "HwIface")) (some none))], none⟩

/-- The same gui module with `src` already bound to `hardware.hw1`. -/
def guiInModBound : LoadedMod :=
  ⟨"deactivated", false,
   some [("src", InSlot.dict (some (CVal.str "HwIface")) (some (some ("hardware", "hw1"))))],
   none⟩

/-- Defined-module entry wiring `src` to `"hw1.out1"`. -/
def guiDefOne : DefinedMod := ⟨true, some (ConnCfg.dict [("src", CVal.str "hw1.out1")])⟩

/-- Defined-module entry whose first connect entry names an undeclared
connector `bad` and whose second is the valid `src` wiring. -/
def guiDefBad : DefinedMod :=
  ⟨true, some (ConnCfg.dict [("bad", CVal.str "hw1.out1"), ("src", CVal.str "hw1.out1")])⟩

def c8Tree : Tree :=
  { emptyTree with loadedHardware := [("hw1", hwOutMod)],
                   loadedGui := [("g", guiInMod)],
                   definedGui := [("g", guiDefOne)] }

def c9Tree : Tree :=
  { emptyTree with loadedHardware := [("hw1", hwOutMod)],
                   loadedGui := [("g", guiInModBound)],
                   definedGui := [("g", guiDefOne)] }

def c10Tree : Tree :=
  { emptyTree with loadedHardware := [("hw1", hwOutMod)],
                   loadedGui := [("g", guiInMod)],
                   definedGui := [("g", guiDefBad)] }

/-! ## Lemmas about the dict primitives -/

theorem dmem_iff {α : Type} (d : List (String × α)) (k : String) :
    dmem d k = true ↔ k ∈ keysOf d := by
  simp only [dmem, List.any_eq_true, beq_iff_eq, keysOf, List.mem_map]

theorem exists_entry_of_mem_keysOf {α : Type} {d : List (String × α)} {k : String}
    (h : k ∈ keysOf d) : ∃ p ∈ d, p.1 = k := by
  simp only [keysOf, List.mem_map] at h
  obtain ⟨p, hp, he⟩ := h
  exact ⟨p, hp, he⟩

theorem mem_keysOf_of_mem {α : Type} {d : List (String × α)} {p : String × α}
    (h : p ∈ d) : p.1 ∈ keysOf d := List.mem_map_of_mem _ h

theorem keysOf_dset_of_mem {α : Type} {d : List (String × α)} {k : String} (v : α)
    (h : dmem d k = true) : keysOf (dset d k v) = keysOf d := by
  simp only [dset, h, if_true, keysOf, List.map_map]
  apply List.map_congr_left
  intro p _
  by_cases hpk : p.1 = k
  · simp [hpk]
  · simp [hpk]

theorem keysOf_dset_of_not_mem {α : Type} {d : List (String × α)} {k : String} (v : α)
    (h : dmem d k = false) : keysOf (dset d k v) = keysOf d ++ [k] := by
  simp [dset, h, keysOf]

theorem mem_keysOf_dset {α : Type} {d : List (String × α)} {k x : String} {v : α} :
    x ∈ keysOf (dset d k v) ↔ x ∈ keysOf d ∨ x = k := by
  by_cases h : dmem d k
  · rw [keysOf_dset_of_mem v h]
    constructor
    · exact Or.inl
    · rintro (hx | rfl)
      · exact hx
      · exact (dmem_iff d x).mp h
  · have h2 : dmem d k = false := by simpa using h
    rw [keysOf_dset_of_not_mem v h2]
    simp

theorem keysOf_dset_nodup {α : Type} {d : List (String × α)} {k : String} {v : α}
    (h : (keysOf d).Nodup) : (keysOf (dset d k v)).Nodup := by
  by_cases hm : dmem d k
  · rwa [keysOf_dset_of_mem v hm]
  · have hm2 : dmem d k = false := by simpa using hm
    rw [keysOf_dset_of_not_mem v hm2]
    refine List.Nodup.append h (List.nodup_singleton k) ?_
    intro a ha hb
    simp only [List.mem_singleton] at hb
    subst hb
    exact hm ((dmem_iff d a).mpr ha)

theorem mem_dset_self {α : Type} {d : List (String × α)} {k : String} {v : α} :
    (k, v) ∈ dset d k v := by
  by_cases h : dmem d k = true
  · rw [dset, if_pos h]
    obtain ⟨p, hp, he⟩ := exists_entry_of_mem_keysOf ((dmem_iff d k).mp h)
    refine List.mem_map.mpr ⟨p, hp, ?_⟩
    simp [he]
  · rw [dset, if_neg h]
    simp

theorem mem_dset_of_ne {α : Type} {d : List (String × α)} {k : String} {v : α}
    {p : String × α} (hp : p ∈ d) (hne : p.1 ≠ k) : p ∈ dset d k v := by
  by_cases h : dmem d k = true
  · rw [dset, if_pos h]
    refine List.mem_map.mpr ⟨p, hp, ?_⟩
    simp [hne]
  · rw [dset, if_neg h]
    simp [hp]

theorem mem_dset_elim {α : Type} {d : List (String × α)} {k : String} {v : α}
    {p : String × α} (hp : p ∈ dset d k v) : p ∈ d ∨ p = (k, v) := by
  by_cases h : dmem d k = true
  · rw [dset, if_pos h] at hp
    obtain ⟨q, hq, he⟩ := List.mem_map.mp hp
    by_cases hqk : q.1 = k
    · simp only [hqk, beq_self_eq_true, if_true] at he
      exact Or.inr he.symm
    · simp only [beq_iff_eq, hqk, if_false] at he
      exact Or.inl (he ▸ hq)
  · rw [dset, if_neg h] at hp
    simp only [List.mem_append, List.mem_singleton] at hp
    exact hp

/-! ## Lemmas about normalization -/

theorem mem_addMissing_of_mem {p : String × List String} :
    ∀ {ks : List String} {d : List (String × List String)},
      p ∈ d → p ∈ addMissing d ks
  | [], _, hp => hp
  | k2 :: _, d, hp => by
    rw [addMissing]
    by_cases h : dmem d k2 = true
    · rw [if_pos h]
      exact mem_addMissing_of_mem hp
    · rw [if_neg h]
      exact mem_addMissing_of_mem (by simp [hp])

theorem mem_addMissing_elim {p : String × List String} :
    ∀ {ks : List String} {d : List (String × List String)},
      p ∈ addMissing d ks → p ∈ d ∨ p.2 = []
  | [], _, hp => Or.inl hp
  | k2 :: _, d, hp => by
    rw [addMissing] at hp
    by_cases h : dmem d k2 = true
    · rw [if_pos h] at hp
      exact mem_addMissing_elim hp
    · rw [if_neg h] at hp
      rcases mem_addMissing_elim hp with hm | he
      · simp only [List.mem_append, List.mem_singleton] at hm
        rcases hm with hm | rfl
        · exact Or.inl hm
        · exact Or.inr rfl
      · exact Or.inr he

theorem mem_keysOf_addMissing :
    ∀ {ks : List String} {d : List (String × List String)} {x : String},
      x ∈ keysOf (addMissing d ks) ↔ x ∈ keysOf d ∨ x ∈ ks
  | [], _, _ => by simp [addMissing]
  | k2 :: ks, d, x => by
    rw [addMissing]
    by_cases h : dmem d k2 = true
    · rw [if_pos h, mem_keysOf_addMissing]
      constructor
      · rintro (hx | hx)
        · exact Or.inl hx
        · exact Or.inr (List.mem_cons_of_mem _ hx)
      · rintro (hx | hx)
        · exact Or.inl hx
        · rcases List.mem_cons.mp hx with rfl | hx
          · exact Or.inl ((dmem_iff d x).mp h)
          · exact Or.inr hx
    · rw [if_neg h, mem_keysOf_addMissing]
      simp only [keysOf, List.map_append, List.map_cons, List.map_nil, List.mem_append,
        List.mem_singleton, List.mem_cons]
      tauto

theorem keysOf_addMissing_nodup :
    ∀ {ks : List String} {d : List (String × List String)},
      (keysOf d).Nodup → (keysOf (addMissing d ks)).Nodup
  | [], _, h => h
  | k2 :: _, d, h => by
    rw [addMissing]
    by_cases hm : dmem d k2 = true
    · rw [if_pos hm]
      exact keysOf_addMissing_nodup h
    · rw [if_neg hm]
      apply keysOf_addMissing_nodup
      have : keysOf (d ++ [(k2, ([] : List String))]) = keysOf d ++ [k2] := by
        simp [keysOf]
      rw [this]
      refine List.Nodup.append h (List.nodup_singleton k2) ?_
      intro a ha hb
      simp only [List.mem_singleton] at hb
      subst hb
      exact hm ((dmem_iff d a).mpr ha)

theorem normalizeFrom_keys_nodup (l : List (String × List String)) :
    ∀ d, (keysOf d).Nodup → (keysOf (normalizeFrom d l)).Nodup := by
  induction l with
  | nil => intro d h; exact h
  | cons p rest ih =>
    intro d h
    obtain ⟨k, v⟩ := p
    rw [normalizeFrom]
    exact ih _ (keysOf_addMissing_nodup (keysOf_dset_nodup h))

theorem mem_normalizeFrom_of_mem {p : String × List String}
    (l : List (String × List String)) :
    ∀ d, p ∈ d → p.1 ∉ l.map Prod.fst → p ∈ normalizeFrom d l := by
  induction l with
  | nil => intro d hp _; exact hp
  | cons q rest ih =>
    intro d hp hnl
    obtain ⟨k, v⟩ := q
    simp only [List.map_cons, List.mem_cons] at hnl
    push_neg at hnl
    rw [normalizeFrom]
    exact ih _ (mem_addMissing_of_mem (mem_dset_of_ne hp hnl.1)) hnl.2

theorem mem_normalizeFrom_self {q : String × List String}
    (l : List (String × List String)) :
    ∀ d, (l.map Prod.fst).Nodup → q ∈ l → q ∈ normalizeFrom d l := by
  induction l with
  | nil => intro d _ hq; exact absurd hq (List.not_mem_nil q)
  | cons p rest ih =>
    intro d hnd hq
    obtain ⟨k, v⟩ := p
    simp only [List.map_cons, List.nodup_cons] at hnd
    rw [normalizeFrom]
    rcases List.mem_cons.mp hq with rfl | hq
    · exact mem_normalizeFrom_of_mem rest _
        (mem_addMissing_of_mem mem_dset_self) hnd.1
    · exact ih _ hnd.2 hq

theorem mem_normalizeFrom_elim {p : String × List String}
    (l : List (String × List String)) :
    ∀ d, p ∈ normalizeFrom d l → p ∈ d ∨ (∃ q ∈ l, p = q) ∨ p.2 = [] := by
  induction l with
  | nil => intro d hp; exact Or.inl hp
  | cons q rest ih =>
    intro d hp
    obtain ⟨k, v⟩ := q
    rw [normalizeFrom] at hp
    rcases ih _ hp with hm | hm | he
    · rcases mem_addMissing_elim hm with hm2 | he2
      · rcases mem_dset_elim hm2 with hm3 | rfl
        · exact Or.inl hm3
        · exact Or.inr (Or.inl ⟨(k, v), List.mem_cons_self _ _, rfl⟩)
      · exact Or.inr (Or.inr he2)
    · obtain ⟨q, hq, he⟩ := hm
      exact Or.inr (Or.inl ⟨q, List.mem_cons_of_mem _ hq, he⟩)
    · exact Or.inr (Or.inr he)

theorem mem_keysOf_normalizeFrom {x : String} (l : List (String × List String)) :
    ∀ d, x ∈ keysOf (normalizeFrom d l) ↔ x ∈ keysOf d ∨ ∃ q ∈ l, q.1 = x ∨ x ∈ q.2 := by
  induction l with
  | nil => intro d; simp [normalizeFrom]
  | cons p rest ih =>
    intro d
    obtain ⟨k, v⟩ := p
    rw [normalizeFrom, ih]
    constructor
    · rintro (hx | hx)
      · rcases (mem_keysOf_addMissing).mp hx with hx2 | hx2
        · rcases mem_keysOf_dset.mp hx2 with hx3 | hxk
          · exact Or.inl hx3
          · exact Or.inr ⟨(k, v), List.mem_cons_self _ _, Or.inl hxk.symm⟩
        · exact Or.inr ⟨(k, v), List.mem_cons_self _ _, Or.inr hx2⟩
      · obtain ⟨q, hq, hv⟩ := hx
        exact Or.inr ⟨q, List.mem_cons_of_mem _ hq, hv⟩
    · rintro (hx | ⟨q, hq, hv⟩)
      · exact Or.inl ((mem_keysOf_addMissing).mpr
          (Or.inl (mem_keysOf_dset.mpr (Or.inl hx))))
      · rcases List.mem_cons.mp hq with rfl | hq
        · rcases hv with hv | hv
          · exact Or.inl ((mem_keysOf_addMissing).mpr
              (Or.inl (mem_keysOf_dset.mpr (Or.inr hv.symm))))
          · exact Or.inl ((mem_keysOf_addMissing).mpr (Or.inr hv))
        · exact Or.inr ⟨q, hq, hv⟩

theorem normalize_keys_nodup (deps0 : List (String × List String)) :
    (keysOf (toposortNormalize deps0)).Nodup :=
  normalizeFrom_keys_nodup deps0 [] (by simp [keysOf])

theorem mem_normalize_of_mem {q : String × List String}
    {deps0 : List (String × List String)} (hkeys : (deps0.map Prod.fst).Nodup)
    (hq : q ∈ deps0) : q ∈ toposortNormalize deps0 :=
  mem_normalizeFrom_self deps0 [] hkeys hq

theorem mem_normalize_elim {p : String × List String}
    {deps0 : List (String × List String)} (hp : p ∈ toposortNormalize deps0) :
    (∃ q ∈ deps0, p = q) ∨ p.2 = [] := by
  rcases mem_normalizeFrom_elim deps0 [] hp with hm | hm | he
  · exact absurd hm (List.not_mem_nil p)
  · exact Or.inl hm
  · exact Or.inr he

theorem mem_keysOf_normalize {x : String} {deps0 : List (String × List String)} :
    x ∈ keysOf (toposortNormalize deps0) ↔ ∃ q ∈ deps0, q.1 = x ∨ x ∈ q.2 := by
  rw [toposortNormalize, mem_keysOf_normalizeFrom]
  simp [keysOf]

/-! ## Lemmas about the stable sort and the elimination loop -/

theorem mem_insertDesc {f : String → Int} {x a : String} :
    ∀ {l : List String}, a ∈ insertDesc f x l ↔ a = x ∨ a ∈ l
  | [] => by simp [insertDesc]
  | y :: ys => by
    rw [insertDesc]
    by_cases h : f x < f y
    · rw [if_pos h]
      simp only [List.mem_cons]
      rw [mem_insertDesc]
      tauto
    · rw [if_neg h]
      simp only [List.mem_cons]

theorem insertDesc_ne_nil {f : String → Int} {x : String} {l : List String} :
    insertDesc f x l ≠ [] := by
  cases l with
  | nil => simp [insertDesc]
  | cons y ys =>
    rw [insertDesc]
    by_cases h : f x < f y
    · rw [if_pos h]; simp
    · rw [if_neg h]; simp

theorem headD_mem {l : List String} {dflt : String} (h : l ≠ []) :
    l.headD dflt ∈ l := by
  cases l with
  | nil => exact absurd rfl h
  | cons x xs => simp [List.headD]

theorem mem_sortDesc {f : String → Int} {a : String} :
    ∀ {l : List String}, a ∈ sortDesc f l ↔ a ∈ l
  | [] => by simp [sortDesc]
  | x :: xs => by
    rw [sortDesc, mem_insertDesc, mem_sortDesc]
    simp

theorem sortDesc_ne_nil {f : String → Int} {l : List String} (h : l ≠ []) :
    sortDesc f l ≠ [] := by
  cases l with
  | nil => exact absurd rfl h
  | cons x xs => rw [sortDesc]; exact insertDesc_ne_nil

/-- The node the loop picks (`ready[0]`, possibly after the stable sort) is
always one of the ready nodes. -/
theorem pickReady_mem (key : Option (String → Int)) (r0 : String) (rs : List String) :
    pickReady key r0 (r0 :: rs) ∈ r0 :: rs := by
  cases key with
  | none => exact List.mem_cons_self _ _
  | some f =>
    have h1 : sortDesc f (r0 :: rs) ≠ [] := sortDesc_ne_nil (by simp)
    exact mem_sortDesc.mp (headD_mem h1)

theorem ready_mem_elim {d : List (String × List String)} {x : String}
    (h : x ∈ readyOf d) : ∃ p ∈ d, p.1 = x ∧ p.2 = [] := by
  obtain ⟨p, hp, he⟩ := List.mem_map.mp h
  have hf := List.mem_filter.mp hp
  exact ⟨p, hf.1, he, List.isEmpty_iff.mp hf.2⟩

theorem ready_mem_intro {d : List (String × List String)} {p : String × List String}
    (hp : p ∈ d) (he : p.2 = []) : p.1 ∈ readyOf d :=
  List.mem_map.mpr ⟨p, List.mem_filter.mpr ⟨hp, by simp [he]⟩, rfl⟩

theorem keysOf_removeNode (d : List (String × List String)) (r : String) :
    keysOf (removeNode d r) = (keysOf d).filter (fun x => x != r) := by
  induction d with
  | nil => simp [removeNode, keysOf]
  | cons p ps ih =>
    simp only [removeNode, keysOf, List.filter_cons, List.map_cons] at *
    by_cases h : (p.1 != r) = true
    · rw [if_pos h, if_pos h]
      simp only [List.map_cons]
      rw [← ih]
    · rw [if_neg h, if_neg h]
      rw [← ih]

theorem length_removeNode_lt {d : List (String × List String)} {r : String}
    (h : r ∈ keysOf d) : (removeNode d r).length < d.length := by
  obtain ⟨p, hp, he⟩ := exists_entry_of_mem_keysOf h
  rw [removeNode, List.length_map]
  apply List.length_filter_lt_length_iff_exists.mpr
  exact ⟨p, hp, by simp [he]⟩

theorem mem_removeNode {d : List (String × List String)} {p : String × List String}
    {r : String} (hp : p ∈ d) (hne : p.1 ≠ r) :
    (p.1, p.2.erase r) ∈ removeNode d r := by
  rw [removeNode]
  exact List.mem_map.mpr ⟨p, List.mem_filter.mpr ⟨hp, by simp [hne]⟩, rfl⟩

theorem mem_removeNode_elim {d : List (String × List String)}
    {q : String × List String} {r : String} (hq : q ∈ removeNode d r) :
    ∃ p ∈ d, p.1 ≠ r ∧ q = (p.1, p.2.erase r) := by
  rw [removeNode] at hq
  obtain ⟨p, hp, he⟩ := List.mem_map.mp hq
  have hf := List.mem_filter.mp hp
  exact ⟨p, hf.1, by simpa using hf.2, he.symm⟩

/-- With keys duplicate-free, a key determines its entry. -/
theorem entry_unique {α : Type} {d : List (String × α)} (hnd : (keysOf d).Nodup)
    {p q : String × α} (hp : p ∈ d) (hq : q ∈ d) (he : p.1 = q.1) : p = q :=
  List.inj_on_of_nodup_map hnd hp hq he

theorem exists_rank_min (f : String → Nat) :
    ∀ l : List String, l ≠ [] → ∃ a ∈ l, ∀ b ∈ l, f a ≤ f b := by
  intro l
  induction l with
  | nil => intro h; exact absurd rfl h
  | cons x xs ih =>
    intro _
    cases xs with
    | nil => exact ⟨x, List.mem_cons_self _ _, by simp⟩
    | cons y ys =>
      obtain ⟨a, ha, hmin⟩ := ih (by simp)
      by_cases h : f x ≤ f a
      · refine ⟨x, List.mem_cons_self _ _, ?_⟩
        intro b hb
        rcases List.mem_cons.mp hb with rfl | hb
        · exact le_refl _
        · exact le_trans h (hmin b hb)
      · refine ⟨a, List.mem_cons_of_mem _ ha, ?_⟩
        intro b hb
        rcases List.mem_cons.mp hb with rfl | hb
        · exact le_of_not_le h
        · exact hmin b hb

/-- Progress: a nonempty working graph whose edges stay inside the key set
and strictly decrease a rank function has a node with no dependencies. -/
theorem ready_nonempty {d : List (String × List String)} (rank : String → Nat)
    (hne : d ≠ [])
    (hclosed : ∀ p ∈ d, ∀ m ∈ p.2, m ∈ keysOf d)
    (hrank : ∀ p ∈ d, ∀ m ∈ p.2, rank m < rank p.1) :
    readyOf d ≠ [] := by
  have hkeys : keysOf d ≠ [] := by
    cases d with
    | nil => exact absurd rfl hne
    | cons p ps => simp [keysOf]
  obtain ⟨k0, hk0, hmin⟩ := exists_rank_min rank (keysOf d) hkeys
  obtain ⟨p0, hp0, he0⟩ := exists_entry_of_mem_keysOf hk0
  have hempty : p0.2 = [] := by
    cases hv : p0.2 with
    | nil => rfl
    | cons m ms =>
      have hm : m ∈ p0.2 := by rw [hv]; exact List.mem_cons_self _ _
      have h1 : rank m < rank p0.1 := hrank p0 hp0 m hm
      have h2 : rank k0 ≤ rank m := hmin m (hclosed p0 hp0 m hm)
      rw [he0] at h1
      omega
  have := ready_mem_intro hp0 hempty
  intro hcon
  rw [hcon] at this
  exact List.not_mem_nil _ this

/-- Soundness and completeness of the elimination loop on a graph that is
closed (every listed dependency has an entry), has duplicate-free keys and
duplicate-free dependency lists, and whose edges strictly decrease a rank
function (the acyclicity witness).  It succeeds, and its output is a
permutation of the keys in which every node comes after its dependencies. -/
theorem toposortIter_ok (key : Option (String → Int)) (rank : String → Nat) :
    ∀ (fuel : Nat) (d : List (String × List String)), d.length ≤ fuel →
    (keysOf d).Nodup →
    (∀ p ∈ d, p.2.Nodup) →
    (∀ p ∈ d, ∀ m ∈ p.2, m ∈ keysOf d) →
    (∀ p ∈ d, ∀ m ∈ p.2, rank m < rank p.1) →
    ∃ order, toposortIter key fuel d = .ok order ∧ order.Perm (keysOf d) ∧
      ∀ p ∈ d, ∀ m ∈ p.2, order.indexOf m < order.indexOf p.1 := by
  intro fuel
  induction fuel with
  | zero =>
    intro d hlen _ _ _ _
    have hnil : d = [] := List.length_eq_zero.mp (Nat.le_zero.mp hlen)
    subst hnil
    exact ⟨[], rfl, by simp [keysOf], by simp⟩
  | succ n ih =>
    intro d hlen hnd hdup hclosed hrank
    cases d with
    | nil => exact ⟨[], rfl, by simp [keysOf], by simp⟩
    | cons p0 ps =>
      have hready : readyOf (p0 :: ps) ≠ [] :=
        ready_nonempty rank (by simp) hclosed hrank
      cases hready0 : readyOf (p0 :: ps) with
      | nil => exact absurd hready0 hready
      | cons r0 rs =>
        have hrmem : pickReady key r0 (r0 :: rs) ∈ r0 :: rs := pickReady_mem key r0 rs
        set r : String := pickReady key r0 (r0 :: rs) with hrdef
        have hrready : r ∈ readyOf (p0 :: ps) := by rw [hready0]; exact hrmem
        obtain ⟨pr, hprmem, hpr1, hpr2⟩ := ready_mem_elim hrready
        have hrkeys : r ∈ keysOf (p0 :: ps) := hpr1 ▸ mem_keysOf_of_mem hprmem
        -- invariants for the reduced graph
        have hlen' : (removeNode (p0 :: ps) r).length ≤ n := by
          have := length_removeNode_lt hrkeys
          simp only [List.length_cons] at *
          omega
        have hnd' : (keysOf (removeNode (p0 :: ps) r)).Nodup := by
          rw [keysOf_removeNode]
          exact List.Nodup.filter _ hnd
        have hdup' : ∀ q ∈ removeNode (p0 :: ps) r, q.2.Nodup := by
          intro q hq
          obtain ⟨p, hp, _, hqe⟩ := mem_removeNode_elim hq
          rw [hqe]
          exact List.Nodup.erase r (hdup p hp)
        have hclosed' : ∀ q ∈ removeNode (p0 :: ps) r, ∀ m ∈ q.2,
            m ∈ keysOf (removeNode (p0 :: ps) r) := by
          intro q hq m hm
          obtain ⟨p, hp, _, hqe⟩ := mem_removeNode_elim hq
          rw [hqe] at hm
          have hmne : m ≠ r := ((List.Nodup.mem_erase_iff (hdup p hp)).mp hm).1
          have hmmem : m ∈ p.2 := ((List.Nodup.mem_erase_iff (hdup p hp)).mp hm).2
          rw [keysOf_removeNode]
          exact List.mem_filter.mpr ⟨hclosed p hp m hmmem, by simp [hmne]⟩
        have hrank' : ∀ q ∈ removeNode (p0 :: ps) r, ∀ m ∈ q.2, rank m < rank q.1 := by
          intro q hq m hm
          obtain ⟨p, hp, _, hqe⟩ := mem_removeNode_elim hq
          rw [hqe] at hm ⊢
          exact hrank p hp m (List.mem_of_mem_erase hm)
        obtain ⟨order', heq', hperm', hord'⟩ :=
          ih (removeNode (p0 :: ps) r) hlen' hnd' hdup' hclosed' hrank'
        refine ⟨r :: order', ?_, ?_, ?_⟩
        · rw [toposortIter, hready0]
          simp only [← hrdef, heq']
        · -- permutation with the keys
          have h1 : (keysOf (p0 :: ps)).Perm (r :: (keysOf (p0 :: ps)).erase r) :=
            List.perm_cons_erase hrkeys
          have h2 : (keysOf (p0 :: ps)).erase r
              = (keysOf (p0 :: ps)).filter (fun x => x != r) :=
            List.Nodup.erase_eq_filter hnd r
          have h3 : order'.Perm ((keysOf (p0 :: ps)).erase r) := by
            rw [h2, ← keysOf_removeNode]
            exact hperm'
          exact (List.Perm.cons r h3).trans h1.symm
        · -- every node comes after its dependencies
          intro p hp m hm
          by_cases hpe : p.1 = r
          · have : p = pr := entry_unique hnd hp hprmem (by rw [hpe, hpr1])
            rw [this, hpr2] at hm
            exact absurd hm (List.not_mem_nil m)
          · have hq : (p.1, p.2.erase r) ∈ removeNode (p0 :: ps) r :=
              mem_removeNode hp hpe
            by_cases hmr : m = r
            · subst hmr
              rw [List.indexOf_cons_self]
              rw [List.indexOf_cons_ne order' (fun h => hpe h.symm)]
              exact Nat.succ_pos _
            · have hm' : m ∈ p.2.erase r := (List.mem_erase_of_ne hmr).mpr hm
              have h5 : List.indexOf m order' < List.indexOf p.1 order' :=
                hord' (p.1, p.2.erase r) hq m hm'
              rw [List.indexOf_cons_ne order' (fun h => hmr h.symm)]
              rw [List.indexOf_cons_ne order' (fun h => hpe h.symm)]
              omega

/-- If some nonempty set `S` of nodes is such that every node of `S` has, in
the working graph, a dependency that again lies in `S` (as is the case for
the node set of any dependency cycle), the elimination loop reports the
cycle error: no node of `S` ever enters the ready list, so the graph never
empties. -/
theorem toposortIter_cycle (key : Option (String → Int)) (S : List String)
    (hS : S ≠ []) :
    ∀ (fuel : Nat) (d : List (String × List String)),
    (keysOf d).Nodup →
    (∀ nn ∈ S, ∃ p ∈ d, p.1 = nn ∧ ∃ m ∈ S, m ∈ p.2) →
    toposortIter key fuel d = .error cycleMsg := by
  intro fuel
  induction fuel with
  | zero =>
    intro d _ hinv
    cases d with
    | nil =>
      cases S with
      | nil => exact absurd rfl hS
      | cons s ss =>
        obtain ⟨p, hp, _⟩ := hinv s (List.mem_cons_self _ _)
        exact absurd hp (List.not_mem_nil p)
    | cons p0 ps => rfl
  | succ n ih =>
    intro d hnd hinv
    cases d with
    | nil =>
      cases S with
      | nil => exact absurd rfl hS
      | cons s ss =>
        obtain ⟨p, hp, _⟩ := hinv s (List.mem_cons_self _ _)
        exact absurd hp (List.not_mem_nil p)
    | cons p0 ps =>
      cases hready0 : readyOf (p0 :: ps) with
      | nil => rw [toposortIter, hready0]
      | cons r0 rs =>
        have hrmem : pickReady key r0 (r0 :: rs) ∈ r0 :: rs := pickReady_mem key r0 rs
        set r : String := pickReady key r0 (r0 :: rs) with hrdef
        have hrready : r ∈ readyOf (p0 :: ps) := by rw [hready0]; exact hrmem
        obtain ⟨pr, hprmem, hpr1, hpr2⟩ := ready_mem_elim hrready
        have hrS : r ∉ S := by
          intro hrS
          obtain ⟨q, hq, hq1, m, _, hmq⟩ := hinv r hrS
          have hqpr : q = pr := entry_unique hnd hq hprmem (hq1.trans hpr1.symm)
          rw [hqpr, hpr2] at hmq
          exact absurd hmq (List.not_mem_nil m)
        have hinv' : ∀ nn ∈ S, ∃ p ∈ removeNode (p0 :: ps) r,
            p.1 = nn ∧ ∃ m ∈ S, m ∈ p.2 := by
          intro nn hnn
          obtain ⟨q, hq, hq1, m, hmS, hmq⟩ := hinv nn hnn
          have hqne : q.1 ≠ r := by
            intro h
            exact hrS (h ▸ hq1 ▸ hnn)
          refine ⟨(q.1, q.2.erase r), mem_removeNode hq hqne, hq1, m, hmS, ?_⟩
          have hmne : m ≠ r := by
            intro h
            exact hrS (h ▸ hmS)
          exact (List.mem_erase_of_ne hmne).mpr hmq
        have hnd' : (keysOf (removeNode (p0 :: ps) r)).Nodup := by
          rw [keysOf_removeNode]
          exact List.Nodup.filter _ hnd
        rw [toposortIter, hready0]
        simp only [← hrdef]
        rw [ih (removeNode (p0 :: ps) r) hnd' hinv']

/-- The loop succeeds on any normalized graph whose raw entries have
duplicate-free dependency lists and rank-decreasing edges. -/
theorem toposortNormalize_iter_ok (key : Option (String → Int)) (rank : String → Nat)
    (deps0 : List (String × List String))
    (hdup : ∀ p ∈ deps0, p.2.Nodup)
    (hrank : ∀ p ∈ deps0, ∀ m ∈ p.2, rank m < rank p.1) :
    ∃ order,
      toposortIter key (toposortNormalize deps0).length (toposortNormalize deps0)
        = .ok order ∧
      order.Perm (keysOf (toposortNormalize deps0)) ∧
      ∀ p ∈ toposortNormalize deps0, ∀ m ∈ p.2,
        order.indexOf m < order.indexOf p.1 := by
  apply toposortIter_ok key rank _ _ (le_refl _) (normalize_keys_nodup deps0)
  · intro p hp
    rcases mem_normalize_elim hp with ⟨q, hq, rfl⟩ | he
    · exact hdup p hq
    · rw [he]; exact List.nodup_nil
  · intro p hp m hm
    rcases mem_normalize_elim hp with ⟨q, hq, rfl⟩ | he
    · exact mem_keysOf_normalize.mpr ⟨p, hq, Or.inr hm⟩
    · rw [he] at hm; exact absurd hm (List.not_mem_nil m)
  · intro p hp m hm
    rcases mem_normalize_elim hp with ⟨q, hq, rfl⟩ | he
    · exact hrank p hq m hm
    · rw [he] at hm; exact absurd hm (List.not_mem_nil m)

theorem normalize_dup {deps0 : List (String × List String)}
    (hdup : ∀ p ∈ deps0, p.2.Nodup) :
    ∀ p ∈ toposortNormalize deps0, p.2.Nodup := by
  intro p hp
  rcases mem_normalize_elim hp with ⟨q, hq, rfl⟩ | he
  · exact hdup p hq
  · rw [he]; exact List.nodup_nil

theorem normalize_rank {deps0 : List (String × List String)} {rank : String → Nat}
    (hrank : ∀ p ∈ deps0, ∀ m ∈ p.2, rank m < rank p.1) :
    ∀ p ∈ toposortNormalize deps0, ∀ m ∈ p.2, rank m < rank p.1 := by
  intro p hp m hm
  rcases mem_normalize_elim hp with ⟨q, hq, rfl⟩ | he
  · exact hrank p hq m hm
  · rw [he] at hm; exact absurd hm (List.not_mem_nil m)

theorem normalize_keys_nodup_fst (deps0 : List (String × List String)) :
    ((toposortNormalize deps0).map Prod.fst).Nodup :=
  normalize_keys_nodup deps0

/-! ## The toposort claims -/

/-- C1 (amended): for every dependency mapping with duplicate-free keys and
duplicate-free dependency lists that is acyclic (witnessed by a rank function
that strictly decreases along every dependency edge), with or without a cost
mapping, `Manager.toposort` returns an order containing every node that
appears as a key or inside a dependency list exactly once, in which every
node occurs after all of the nodes it depends on. -/
theorem toposort_acyclic_amended (deps0 : List (String × List String))
    (cost : Option (List (String × Int))) (rank : String → Nat)
    (hkeys : (deps0.map Prod.fst).Nodup)
    (hdup : ∀ p ∈ deps0, p.2.Nodup)
    (hrank : ∀ p ∈ deps0, ∀ m ∈ p.2, rank m < rank p.1) :
    ∃ order, toposort deps0 cost = .ok order ∧ order.Nodup ∧
      (∀ nn, nn ∈ order ↔ ∃ p ∈ deps0, p.1 = nn ∨ nn ∈ p.2) ∧
      ∀ p ∈ deps0, ∀ m ∈ p.2, order.indexOf m < order.indexOf p.1 := by
  cases cost with
  | none =>
    obtain ⟨order, heq, hperm, hord⟩ :=
      toposortNormalize_iter_ok none rank deps0 hdup hrank
    refine ⟨order, heq, (hperm.nodup_iff).mpr (normalize_keys_nodup deps0), ?_, ?_⟩
    · intro nn
      rw [hperm.mem_iff, mem_keysOf_normalize]
    · intro p hp m hm
      exact hord p (mem_normalize_of_mem hkeys hp) m hm
  | some c =>
    obtain ⟨order0, heq0, _, _⟩ :=
      toposortNormalize_iter_ok none rank (toposortNormalize deps0)
        (normalize_dup hdup) (normalize_rank hrank)
    have hNC : toposortNoCost (toposortNormalize deps0) = .ok order0 := heq0
    obtain ⟨order, heq, hperm, hord⟩ :=
      toposortNormalize_iter_ok
        (some (totalCostFun c (computeAllDeps (toposortNormalize deps0) order0)))
        rank deps0 hdup hrank
    refine ⟨order, ?_, (hperm.nodup_iff).mpr (normalize_keys_nodup deps0), ?_, ?_⟩
    · show (match toposortNoCost (toposortNormalize deps0) with
        | .error e => .error e
        | .ok order =>
          toposortIter
            (some (totalCostFun c (computeAllDeps (toposortNormalize deps0) order)))
            (toposortNormalize deps0).length (toposortNormalize deps0))
        = Except.ok order
      rw [hNC]
      exact heq
    · intro nn
      rw [hperm.mem_iff, mem_keysOf_normalize]
    · intro p hp m hm
      exact hord p (mem_normalize_of_mem hkeys hp) m hm

/-- C1 (counterexample to the claim as stated): the mapping
`{'a': ['b', 'b']}` is acyclic — the rank function `a ↦ 1, _ ↦ 0` strictly
decreases along its only edge — yet `Manager.toposort` raises the cycle
error, because `v.remove(ready[0])` deletes only the first copy of `'b'`
from the dependency list, leaving `'a'` with a phantom dependency on the
already-deleted node. -/
theorem toposort_duplicate_dep_counterexample :
    toposort [("a", ["b", "b"])] none = .error cycleMsg ∧
    (∀ p ∈ [("a", ["b", "b"])], ∀ m ∈ p.2,
      (if m = "a" then 1 else 0) < (if p.1 = "a" then 1 else 0)) := by
  exact ⟨rfl, by decide⟩

/-- C1 witness: the amended theorem applied to the concrete acyclic mapping
`{'a': ['b']}` with rank `a ↦ 1, _ ↦ 0`. -/
theorem toposort_acyclic_amended_witness :
    ∃ order, toposort [("a", ["b"])] none = .ok order ∧ order.Nodup ∧
      (∀ nn, nn ∈ order ↔ ∃ p ∈ [("a", ["b"])], p.1 = nn ∨ nn ∈ p.2) ∧
      ∀ p ∈ [("a", ["b"])], ∀ m ∈ p.2, order.indexOf m < order.indexOf p.1 :=
  toposort_acyclic_amended [("a", ["b"])] none
    (fun nn => if nn = "a" then 1 else 0) (by decide) (by decide) (by decide)

/-- C2: for every dependency mapping (with the unique keys every Python dict
has) that contains a cycle — a nonempty node list in which every node
depends on the next, cyclically — `Manager.toposort` raises the cycle error,
with or without a cost mapping, and returns no order at all (the error value
carries no partial output). -/
theorem toposort_cycle_error (deps0 : List (String × List String))
    (cost : Option (List (String × Int)))
    (hkeys : (deps0.map Prod.fst).Nodup)
    (c : List String) (hc : c ≠ [])
    (hcyc : ∀ i : Fin c.length, ∃ p ∈ deps0, p.1 = c.get i ∧
        c.get ⟨(i.val + 1) % c.length, Nat.mod_lt _ i.pos⟩ ∈ p.2) :
    toposort deps0 cost = .error cycleMsg := by
  have hinv : ∀ nn ∈ c, ∃ p ∈ toposortNormalize deps0,
      p.1 = nn ∧ ∃ m ∈ c, m ∈ p.2 := by
    intro nn hnn
    obtain ⟨i, hi⟩ := List.mem_iff_get.mp hnn
    obtain ⟨p, hp, hp1, hp2⟩ := hcyc i
    exact ⟨p, mem_normalize_of_mem hkeys hp, hp1.trans hi, _, List.get_mem c _ _, hp2⟩
  cases cost with
  | none =>
    exact toposortIter_cycle none c hc _ _ (normalize_keys_nodup deps0) hinv
  | some cc =>
    have hinv2 : ∀ nn ∈ c, ∃ p ∈ toposortNormalize (toposortNormalize deps0),
        p.1 = nn ∧ ∃ m ∈ c, m ∈ p.2 := by
      intro nn hnn
      obtain ⟨p, hp, hp1, hrest⟩ := hinv nn hnn
      exact ⟨p, mem_normalize_of_mem (normalize_keys_nodup_fst deps0) hp, hp1, hrest⟩
    have hNC : toposortNoCost (toposortNormalize deps0) = .error cycleMsg :=
      toposortIter_cycle none c hc _ _
        (normalize_keys_nodup (toposortNormalize deps0)) hinv2
    show (match toposortNoCost (toposortNormalize deps0) with
      | .error e => .error e
      | .ok order =>
        toposortIter
          (some (totalCostFun cc (computeAllDeps (toposortNormalize deps0) order)))
          (toposortNormalize deps0).length (toposortNormalize deps0))
      = Except.error cycleMsg
    rw [hNC]

/-- C2 witness: the two-node cycle `{'a': ['b'], 'b': ['a']}`. -/
theorem toposort_cycle_error_witness :
    toposort [("a", ["b"]), ("b", ["a"])] none = .error cycleMsg :=
  toposort_cycle_error [("a", ["b"]), ("b", ["a"])] none (by decide)
    ["a", "b"] (by decide) (by decide)

/-- C3: on the documented example `deps = {'a': ['b','c'], 'c': ['b','d'],
'e': ['b']}` with `cost = {'a': 0, 'b': 0, 'c': 1, 'e': 1, 'd': 3}`,
`Manager.toposort` returns exactly `['d', 'b', 'c', 'e', 'a']`: the order
starts with `'d'` and places `'b'` immediately after it. -/
theorem toposort_cost_example :
    toposort [("a", ["b", "c"]), ("c", ["b", "d"]), ("e", ["b"])]
      (some [("a", 0), ("b", 0), ("c", 1), ("e", 1), ("d", 3)])
      = .ok ["d", "b", "c", "e", "a"] := rfl

/-- C4 (the `set(n)` bug, Manager.py line 784): on
`deps = {'ab': [], 'c': []}` with `cost = {'ab': 5, 'c': 1}`, the spec's
branch costs are 5 for `'ab'` and 1 for `'c'` (each node's downstream set is
itself), so the spec requires `'ab'` to be emitted first; but the code
computes `set('ab') = {'a', 'b'}` instead of `{'ab'}`, giving `'ab'` a total
branch cost of 0, and therefore emits `'c'` first.  The last conjunct
evaluates the code's cost table (the unweighted traversal order is
`['ab', 'c']`). -/
theorem toposort_branch_cost_bug :
    toposort [("ab", []), ("c", [])] (some [("ab", 5), ("c", 1)])
      = .ok ["c", "ab"] ∧
    specBranchCost [("ab", []), ("c", [])] [("ab", 5), ("c", 1)] "ab" = 5 ∧
    specBranchCost [("ab", []), ("c", [])] [("ab", 5), ("c", 1)] "c" = 1 ∧
    totalCostFun [("ab", 5), ("c", 1)]
      (computeAllDeps (toposortNormalize [("ab", []), ("c", [])]) ["ab", "c"])
      "ab" = 0 := ⟨rfl, rfl, rfl, rfl⟩

/-! ## Further dict lemmas (for the Manager operations) -/

theorem dget_cons {α : Type} (p : String × α) (ps : List (String × α)) (k : String) :
    dget (p :: ps) k = if p.1 = k then some p.2 else dget ps k := by
  by_cases h : p.1 = k
  · simp [dget, List.find?_cons, h]
  · simp [dget, List.find?_cons, h]

theorem dmem_cons {α : Type} (p : String × α) (ps : List (String × α)) (k : String) :
    dmem (p :: ps) k = (p.1 == k || dmem ps k) := by
  simp [dmem, List.any_cons]

theorem dget_dset_self {α : Type} (d : List (String × α)) (k : String) (v : α) :
    dget (dset d k v) k = some v := by
  rw [dset]
  by_cases h : dmem d k = true
  · rw [if_pos h]
    induction d with
    | nil => simp [dmem] at h
    | cons p ps ih =>
      rw [dmem_cons] at h
      simp only [Bool.or_eq_true, beq_iff_eq] at h
      rw [List.map_cons]
      by_cases hpk : p.1 = k
      · simp only [hpk, beq_self_eq_true, if_true]
        rw [dget_cons]
        simp
      · have hps : dmem ps k = true := by
          rcases h with h | h
          · exact absurd h hpk
          · exact h
        have hif : (if (p.1 == k) = true then (k, v) else p) = p := by simp [hpk]
        rw [hif, dget_cons, if_neg hpk]
        exact ih hps
  · rw [if_neg h]
    induction d with
    | nil => simp [dget]
    | cons p ps ih =>
      rw [dmem_cons] at h
      simp only [Bool.or_eq_true, beq_iff_eq] at h
      push_neg at h
      rw [List.cons_append, dget_cons, if_neg h.1]
      exact ih (by simpa using h.2)

theorem dget_dset_ne {α : Type} (d : List (String × α)) (k k' : String) (v : α)
    (h : k' ≠ k) : dget (dset d k v) k' = dget d k' := by
  rw [dset]
  by_cases hm : dmem d k = true
  · rw [if_pos hm]
    clear hm
    induction d with
    | nil => simp
    | cons p ps ih =>
      rw [List.map_cons]
      by_cases hpk : p.1 = k
      · have hif : (if (p.1 == k) = true then (k, v) else p) = (k, v) := by simp [hpk]
        rw [hif, dget_cons, dget_cons,
          if_neg (show ¬((k, v).1 = k') from fun hh => h hh.symm),
          if_neg (show ¬(p.1 = k') from fun hh => h (hh.symm.trans hpk))]
        exact ih
      · have hif : (if (p.1 == k) = true then (k, v) else p) = p := by simp [hpk]
        rw [hif, dget_cons, dget_cons]
        by_cases hpk' : p.1 = k'
        · rw [if_pos hpk', if_pos hpk']
        · rw [if_neg hpk', if_neg hpk']
          exact ih
  · rw [if_neg hm]
    clear hm
    induction d with
    | nil =>
      rw [List.nil_append, dget_cons,
        if_neg (show ¬((k, v).1 = k') from fun hh => h hh.symm)]
    | cons p ps ih =>
      rw [List.cons_append, dget_cons, dget_cons]
      by_cases hpk' : p.1 = k'
      · rw [if_pos hpk', if_pos hpk']
      · rw [if_neg hpk', if_neg hpk']
        exact ih

theorem dmem_of_dget_some {α : Type} {d : List (String × α)} {k : String} {v : α}
    (h : dget d k = some v) : dmem d k = true := by
  induction d with
  | nil => simp [dget] at h
  | cons p ps ih =>
    rw [dget_cons] at h
    rw [dmem_cons]
    by_cases hpk : p.1 = k
    · simp [hpk]
    · rw [if_neg hpk] at h
      simp [ih h]

theorem dget_some_of_dmem {α : Type} {d : List (String × α)} {k : String}
    (h : dmem d k = true) : ∃ v, dget d k = some v := by
  induction d with
  | nil => simp [dmem] at h
  | cons p ps ih =>
    rw [dmem_cons] at h
    simp only [Bool.or_eq_true, beq_iff_eq] at h
    rw [dget_cons]
    by_cases hpk : p.1 = k
    · rw [if_pos hpk]
      exact ⟨p.2, rfl⟩
    · rw [if_neg hpk]
      rcases h with h | h
      · exact absurd h hpk
      · exact ih h

theorem dmem_dset {α : Type} {d : List (String × α)} {k : String} (v : α)
    (hm : dmem d k = true) (k' : String) : dmem (dset d k v) k' = dmem d k' := by
  have h1 := keysOf_dset_of_mem v hm
  cases hb : dmem d k' with
  | true =>
    exact (dmem_iff _ _).mpr (by rw [h1]; exact (dmem_iff d k').mp hb)
  | false =>
    cases hb2 : dmem (dset d k v) k' with
    | false => rfl
    | true =>
      have h2 := (dmem_iff _ _).mp hb2
      rw [h1] at h2
      rw [(dmem_iff d k').mpr h2] at hb
      exact hb

theorem dget_append_left {α : Type} {d : List (String × α)} {k : String} {v : α}
    (h : dget d k = some v) (l2 : List (String × α)) :
    dget (d ++ l2) k = some v := by
  induction d with
  | nil => simp [dget] at h
  | cons p ps ih =>
    rw [dget_cons] at h
    rw [List.cons_append, dget_cons]
    by_cases hpk : p.1 = k
    · rw [if_pos hpk] at h ⊢
      exact h
    · rw [if_neg hpk] at h ⊢
      exact ih h

/-! ## Tree lemmas -/

theorem loaded_base_cases {t : Tree} {base : String}
    {tbl : List (String × LoadedMod)} (h : t.loaded base = some tbl) :
    base = "hardware" ∨ base = "logic" ∨ base = "gui" := by
  by_contra hcon
  push_neg at hcon
  rw [Tree.loaded, if_neg hcon.1, if_neg hcon.2.1, if_neg hcon.2.2] at h
  exact Option.noConfusion h

theorem loaded_none_not_base {t : Tree} {base : String} (h : t.loaded base = none) :
    ¬ (base = "hardware" ∨ base = "logic" ∨ base = "gui") := by
  intro hd
  rcases hd with rfl | rfl | rfl <;> simp [Tree.loaded] at h

theorem loaded_setLoaded_self {t : Tree} {base : String}
    {tbl0 : List (String × LoadedMod)} (tbl : List (String × LoadedMod))
    (h : t.loaded base = some tbl0) :
    (t.setLoaded base tbl).loaded base = some tbl := by
  rw [Tree.loaded] at h
  rw [Tree.setLoaded, Tree.loaded]
  split_ifs at h ⊢ <;> simp_all

theorem loaded_setLoaded_ne {t : Tree} {base base' : String}
    (tbl : List (String × LoadedMod)) (h : base' ≠ base) :
    (t.setLoaded base tbl).loaded base' = t.loaded base' := by
  rw [Tree.setLoaded, Tree.loaded, Tree.loaded]
  split_ifs <;> simp_all

theorem defined_setLoaded (t : Tree) (base : String) (tbl : List (String × LoadedMod))
    (b2 : String) : (t.setLoaded base tbl).defined b2 = t.defined b2 := by
  rw [Tree.setLoaded, Tree.defined, Tree.defined]
  split_ifs <;> simp_all

/-! ## The activateModule claim (C5) -/

/-- C5 (counterexample to the claim as stated): for a loaded *hardware*
module in a non-deactivated state, `activateModule` does not "report an
error without raising" — `key in self.tree['start']['hardware']` raises
KeyError (`__init__` never creates a hardware startup table), so the call
raises with no error logged. -/
theorem activateModule_hardware_counterexample :
    ¬ ((activateModule c5HardwareTree "hardware" "cam").errLogged = true ∧
       (activateModule c5HardwareTree "hardware" "cam").raised = none ∧
       (activateModule c5HardwareTree "hardware" "cam").hookInvoked = false) ∧
    (activateModule c5HardwareTree "hardware" "cam").raised = some "KeyError" := by
  refine ⟨?_, rfl⟩
  intro h
  exact Option.noConfusion h.2.1

/-- C5 (amended): for every loaded module of a category that has a startup
table (`logic` and `gui` — for `hardware`, `tree['start'][base]` does not
exist and a non-deactivated module makes the call raise KeyError instead):
if the module's state is not `deactivated` and it is in the startup set, the
call returns without invoking the hook and without logging; if its state is
not `deactivated` and it is not in the startup set, the call logs an error,
raises nothing and does not invoke the hook; and for every category, a
module in state `deactivated` has its activation hook invoked with any hook
failure trapped and logged, never propagated. -/
theorem activateModule_amended :
    (∀ (t : Tree) (base key : String) tbl stbl lm,
      t.loaded base = some tbl → dget tbl key = some lm →
      lm.state ≠ "deactivated" → t.start base = some stbl → dmem stbl key = true →
      activateModule t base key = ⟨false, false, none⟩) ∧
    (∀ (t : Tree) (base key : String) tbl stbl lm,
      t.loaded base = some tbl → dget tbl key = some lm →
      lm.state ≠ "deactivated" → t.start base = some stbl → dmem stbl key = false →
      activateModule t base key = ⟨false, true, none⟩) ∧
    (∀ (t : Tree) (base key : String) tbl lm,
      t.loaded base = some tbl → dget tbl key = some lm →
      lm.state = "deactivated" →
      activateModule t base key = ⟨true, lm.activateRaises, none⟩) := by
  refine ⟨?_, ?_, ?_⟩
  · intro t base key tbl stbl lm h1 h2 h3 h4 h5
    simp only [activateModule, h1, h2, h4]
    rw [if_pos h3, if_pos h5]
  · intro t base key tbl stbl lm h1 h2 h3 h4 h5
    simp only [activateModule, h1, h2, h4]
    rw [if_pos h3, if_neg (by simp [h5])]
  · intro t base key tbl lm h1 h2 h3
    simp only [activateModule, h1, h2]
    rw [if_neg (by simp [h3])]
    cases hr : lm.activateRaises with
    | true => simp
    | false => simp

/-- C5 witness: the three amended branches at concrete trees — an activated
logic module in the startup set (no-op), an activated logic module outside
it (logged error, no raise, no hook), and a deactivated hardware module
(hook invoked, nothing raised). -/
theorem activateModule_amended_witness :
    activateModule c5StartTree "logic" "lm" = ⟨false, false, none⟩ ∧
    activateModule c5NoStartTree "logic" "lm" = ⟨false, true, none⟩ ∧
    activateModule c5DeactTree "hardware" "hw1" = ⟨true, false, none⟩ :=
  ⟨activateModule_amended.1 c5StartTree "logic" "lm"
      [("lm", activatedMod)] [("lm", ⟨true, none⟩)] activatedMod
      rfl rfl (by decide) rfl (by decide),
   activateModule_amended.2.1 c5NoStartTree "logic" "lm"
      [("lm", activatedMod)] [] activatedMod
      rfl rfl (by decide) rfl (by decide),
   activateModule_amended.2.2 c5DeactTree "hardware" "hw1"
      [("hw1", deactivatedMod)] deactivatedMod rfl rfl rfl⟩

/-! ## The configure/storageDir claim (C6) -/

/-- C6 (code bug, Manager.py line 424): for every manager state and every
path, configuring a document whose `global` section sets `storageDir` leaves
the base data directory unchanged and emits no `sigBaseDirChanged` — indeed
the whole state is unchanged and only `sigConfigChanged` is emitted —
because `setBaseDir` calls the nonexistent `os.path.dirName` (the module
only defines `dirname`), raising AttributeError before assigning, and
`configure`'s per-key `except` swallows the exception.  The claim says the
base directory is set as an immediate side effect and the changed
notification is emitted; the code does neither. -/
theorem configure_storageDir_bug (st : MgrState) (p : String) :
    (configure st [CfgTop.globalSec [("storageDir", p)]]).1 = st ∧
    (configure st [CfgTop.globalSec [("storageDir", p)]]).2 = [Signal.configChanged] :=
  ⟨rfl, rfl⟩

/-! ## The configureModule claim (C7) -/

/-- C7: `configureModule` with an instance name already loaded in a
recognized category raises the duplicate-name error with the module tree
unchanged (the second instance is never registered, no signal is emitted);
an unrecognized category likewise raises with the tree unchanged. -/
theorem configureModule_rejects :
    (∀ (t : Tree) (mo : PyModuleObj) (base cn iname : String)
        (inst : LoadedMod) (ctorR : Bool) tbl,
      t.loaded base = some tbl → dmem tbl iname = true →
      configureModule t mo base cn iname inst ctorR = .error (t, "already exists")) ∧
    (∀ (t : Tree) (mo : PyModuleObj) (base cn iname : String)
        (inst : LoadedMod) (ctorR : Bool),
      t.loaded base = none →
      configureModule t mo base cn iname inst ctorR = .error (t, "cheat category")) := by
  constructor
  · intro t mo base cn iname inst ctorR tbl h1 h2
    rw [configureModule, if_pos (loaded_base_cases h1)]
    simp only [h1]
    rw [if_pos h2]
  · intro t mo base cn iname inst ctorR h1
    rw [configureModule, if_neg (loaded_none_not_base h1)]

/-- C7 witness: a duplicate hardware instance name and a bogus category, on
a tree with one loaded hardware module. -/
theorem configureModule_rejects_witness :
    configureModule c5HardwareTree pyModEx "hardware" "C" "cam" activatedMod false
      = .error (c5HardwareTree, "already exists") ∧
    configureModule c5HardwareTree pyModEx "bogus" "C" "x" activatedMod false
      = .error (c5HardwareTree, "cheat category") :=
  ⟨configureModule_rejects.1 c5HardwareTree pyModEx "hardware" "C" "cam"
      activatedMod false [("cam", activatedMod)] rfl (by decide),
   configureModule_rejects.2 c5HardwareTree pyModEx "bogus" "C" "x"
      activatedMod false rfl⟩

/-! ## connectModule lemmas -/

/-- `bindConn` either leaves the tree untouched (its unreachable guard arms)
or rewrites exactly the targeted connector slot. -/
theorem bindConn_cases (t : Tree) (base mkey c0 : String) (r : String × String) :
    bindConn t base mkey c0 r = t ∨
    ∃ tbl lm ci cls ob,
      t.loaded base = some tbl ∧ dget tbl mkey = some lm ∧ lm.inConns = some ci ∧
      dget ci c0 = some (InSlot.dict cls ob) ∧
      bindConn t base mkey c0 r
        = t.setLoaded base (dset tbl mkey
            { lm with inConns := some (dset ci c0 (InSlot.dict cls (some (some r)))) }) := by
  cases hl : t.loaded base with
  | none => left; simp only [bindConn, hl]
  | some tbl =>
    cases hm : dget tbl mkey with
    | none => left; simp only [bindConn, hl, hm]
    | some lm =>
      cases hin : lm.inConns with
      | none => left; simp only [bindConn, hl, hm, hin]
      | some ci =>
        cases hslot : dget ci c0 with
        | none => left; simp only [bindConn, hl, hm, hin, hslot]
        | some slot =>
          cases slot with
          | notDict => left; simp only [bindConn, hl, hm, hin, hslot]
          | dict cls ob =>
            right
            refine ⟨tbl, lm, ci, cls, ob, rfl, hm, hin, hslot, ?_⟩
            simp only [bindConn, hl, hm, hin, hslot]

theorem loadedMem_setLoaded {t : Tree} {base : String}
    {tbl : List (String × LoadedMod)} {mkey : String} (lm' : LoadedMod)
    (hl : t.loaded base = some tbl) (hmem : dmem tbl mkey = true)
    (b x : String) :
    loadedMem (t.setLoaded base (dset tbl mkey lm')) b x = loadedMem t b x := by
  by_cases hb : b = base
  · subst hb
    simp only [loadedMem, loaded_setLoaded_self (dset tbl mkey lm') hl, hl]
    exact dmem_dset lm' hmem x
  · simp only [loadedMem, loaded_setLoaded_ne _ hb]

theorem checkOut_setLoaded {t : Tree} {base : String}
    {tbl : List (String × LoadedMod)} {mkey : String} {lm : LoadedMod}
    (lm' : LoadedMod) (hl : t.loaded base = some tbl)
    (hm : dget tbl mkey = some lm) (hout : lm'.outConns = lm.outConns)
    (destbase destmod destcon : String) :
    checkOut (t.setLoaded base (dset tbl mkey lm')) destbase destmod destcon
      = checkOut t destbase destmod destcon := by
  by_cases hdb : destbase = base
  · by_cases hdm : destmod = mkey
    · rw [hdb, hdm]
      simp only [checkOut, loaded_setLoaded_self (dset tbl mkey lm') hl, hl,
        dget_dset_self, hm, hout]
    · rw [hdb]
      simp only [checkOut, loaded_setLoaded_self (dset tbl mkey lm') hl, hl,
        dget_dset_ne tbl mkey destmod lm' hdm]
  · simp only [checkOut, loaded_setLoaded_ne _ hdb]

theorem checkOut_bindConn (t : Tree) (base mkey c0 : String) (r : String × String)
    (destbase destmod destcon : String) :
    checkOut (bindConn t base mkey c0 r) destbase destmod destcon
      = checkOut t destbase destmod destcon := by
  rcases bindConn_cases t base mkey c0 r with hb | ⟨tbl, lm, ci, cls, ob, hl, hm, _, _, hb⟩
  · rw [hb]
  · rw [hb]
    exact checkOut_setLoaded
      { lm with inConns := some (dset ci c0 (InSlot.dict cls (some (some r)))) }
      hl hm rfl destbase destmod destcon

theorem loadedMem_bindConn (t : Tree) (base mkey c0 : String) (r : String × String)
    (b x : String) :
    loadedMem (bindConn t base mkey c0 r) b x = loadedMem t b x := by
  rcases bindConn_cases t base mkey c0 r with hb | ⟨tbl, lm, ci, cls, ob, hl, hm, _, _, hb⟩
  · rw [hb]
  · rw [hb]
    exact loadedMem_setLoaded
      { lm with inConns := some (dset ci c0 (InSlot.dict cls (some (some r)))) }
      hl (dmem_of_dget_some hm) b x

theorem connObj_setLoaded_ne {t : Tree} {base : String}
    {tbl : List (String × LoadedMod)} {mkey : String} {lm : LoadedMod}
    {ci : List (String × InSlot)} {c0 : String} (slot' : InSlot)
    (hl : t.loaded base = some tbl) (hm : dget tbl mkey = some lm)
    (hin : lm.inConns = some ci) (b' m' c' : String)
    (hne : ¬ (b' = base ∧ m' = mkey ∧ c' = c0)) :
    connObj (t.setLoaded base (dset tbl mkey
        { lm with inConns := some (dset ci c0 slot') })) b' m' c'
      = connObj t b' m' c' := by
  by_cases hb : b' = base
  · by_cases hm' : m' = mkey
    · have hc' : c' ≠ c0 := by
        intro hcc
        exact hne ⟨hb, hm', hcc⟩
      rw [hb, hm']
      simp only [connObj,
        loaded_setLoaded_self
          (dset tbl mkey { lm with inConns := some (dset ci c0 slot') }) hl, hl,
        dget_dset_self, hm, hin, dget_dset_ne ci c0 c' slot' hc']
    · rw [hb]
      simp only [connObj,
        loaded_setLoaded_self
          (dset tbl mkey { lm with inConns := some (dset ci c0 slot') }) hl, hl,
        dget_dset_ne tbl mkey m' _ hm']
  · simp only [connObj, loaded_setLoaded_ne _ hb]

theorem connObj_bindConn_ne (t : Tree) (base mkey c0 : String) (r : String × String)
    (b' m' c' : String) (hne : ¬ (b' = base ∧ m' = mkey ∧ c' = c0)) :
    connObj (bindConn t base mkey c0 r) b' m' c' = connObj t b' m' c' := by
  rcases bindConn_cases t base mkey c0 r with hb | ⟨tbl, lm, ci, cls, ob, hl, hm, hin, _, hb⟩
  · rw [hb]
  · rw [hb]
    exact connObj_setLoaded_ne (InSlot.dict cls (some (some r))) hl hm hin b' m' c' hne

theorem connObj_bindConn_self {t : Tree} {base mkey c0 : String}
    {tbl : List (String × LoadedMod)} {lm : LoadedMod}
    {ci : List (String × InSlot)} {cls : Option CVal}
    {ob : Option (Option (String × String))} (r : String × String)
    (hl : t.loaded base = some tbl) (hm : dget tbl mkey = some lm)
    (hin : lm.inConns = some ci) (hslot : dget ci c0 = some (InSlot.dict cls ob)) :
    connObj (bindConn t base mkey c0 r) base mkey c0 = some (some r) := by
  have hb : bindConn t base mkey c0 r
      = t.setLoaded base (dset tbl mkey
        { lm with inConns := some (dset ci c0 (InSlot.dict cls (some (some r)))) }) := by
    simp only [bindConn, hl, hm, hin, hslot]
  rw [hb]
  simp only [connObj,
    loaded_setLoaded_self
      (dset tbl mkey
        { lm with inConns := some (dset ci c0 (InSlot.dict cls (some (some r)))) }) hl,
    dget_dset_self]

/-- The components established by a successful per-entry check: the module
is loaded, declares the connector as a dict with a string class and an
unbound (`None`) object, and the entry value is a dotted string. -/
theorem entryCheck_ok_elim {t : Tree} {base mkey c : String} {v : CVal}
    {db dm dc : String}
    (h : entryCheck t base mkey c v = .ok (db, dm, dc)) :
    ∃ tbl lm ci cls s, t.loaded base = some tbl ∧ dget tbl mkey = some lm ∧
      lm.inConns = some ci ∧
      dget ci c = some (InSlot.dict (some (CVal.str cls)) (some none)) ∧
      v = CVal.str s := by
  unfold entryCheck at h
  cases hl : t.loaded base with
  | none => simp only [hl] at h; exact Except.noConfusion h
  | some tbl =>
  simp only [hl] at h
  cases hm : dget tbl mkey with
  | none => simp only [hm] at h; exact Except.noConfusion h
  | some lm =>
  simp only [hm] at h
  cases hin : lm.inConns with
  | none => simp only [hin] at h; exact Except.noConfusion h
  | some ci =>
  simp only [hin] at h
  cases hslot : dget ci c with
  | none => simp only [hslot] at h; exact Except.noConfusion h
  | some slot =>
  simp only [hslot] at h
  cases slot with
  | notDict => exact Except.noConfusion h
  | dict cls ob =>
    cases cls with
    | none => exact Except.noConfusion h
    | some cv =>
      cases cv with
      | other => exact Except.noConfusion h
      | str clsv =>
        cases ob with
        | none => exact Except.noConfusion h
        | some obv =>
          cases obv with
          | some _ => exact Except.noConfusion h
          | none =>
            cases v with
            | other => exact Except.noConfusion h
            | str s => exact ⟨tbl, lm, ci, clsv, s, rfl, hm, hin, hslot, rfl⟩

/-- A per-entry check is unchanged by binding a *different* connector of the
same module: none of the lookups it performs are affected. -/
theorem entryCheck_bindConn (t : Tree) (base mkey c0 : String) (r : String × String)
    (c : String) (v : CVal) (hcne : c ≠ c0) :
    entryCheck (bindConn t base mkey c0 r) base mkey c v
      = entryCheck t base mkey c v := by
  rcases bindConn_cases t base mkey c0 r with hb | ⟨tbl, lm, ci, cls, ob, hl, hm, hin, hslot, hb⟩
  · rw [hb]
  · rw [hb]
    have hmem : dmem tbl mkey = true := dmem_of_dget_some hm
    simp only [entryCheck,
      loaded_setLoaded_self
        (dset tbl mkey
          { lm with inConns := some (dset ci c0 (InSlot.dict cls (some (some r)))) }) hl,
      hl, dget_dset_self, hm, hin, dget_dset_ne ci c0 c _ hcne]
    cases hslot2 : dget ci c with
    | none => rfl
    | some slot2 =>
      cases slot2 with
      | notDict => rfl
      | dict cls2 ob2 =>
        cases cls2 with
        | none => rfl
        | some cv2 =>
          cases cv2 with
          | other => rfl
          | str _ =>
            cases ob2 with
            | none => rfl
            | some obv2 =>
              cases obv2 with
              | some _ => rfl
              | none =>
                cases v with
                | other => rfl
                | str s =>
                  simp only [
                    loadedMem_setLoaded
                      { lm with inConns := some (dset ci c0 (InSlot.dict cls (some (some r)))) }
                      hl hmem,
                    checkOut_setLoaded
                      { lm with inConns := some (dset ci c0 (InSlot.dict cls (some (some r)))) }
                      hl hm rfl]

/-- A well-formed entry (in the claim's sense) passes every check of the
code's validation chain, resolving to the target named by its value. -/
theorem entryCheck_of_wellFormed {t : Tree} {base mkey c : String} {v : CVal}
    (h : entryWellFormed t base mkey c v = true) :
    entryCheck t base mkey c v = .ok (targetBaseOf t v, destModOf v, destConOf v) := by
  unfold entryWellFormed at h
  cases hl : t.loaded base with
  | none => simp only [hl] at h; exact Bool.noConfusion h
  | some tbl =>
  simp only [hl] at h
  cases hm : dget tbl mkey with
  | none => simp only [hm] at h; exact Bool.noConfusion h
  | some lm =>
  simp only [hm] at h
  cases hin : lm.inConns with
  | none => simp only [hin] at h; exact Bool.noConfusion h
  | some ci =>
  simp only [hin] at h
  cases hslot : dget ci c with
  | none => simp only [hslot] at h; exact Bool.noConfusion h
  | some slot =>
  simp only [hslot] at h
  cases slot with
  | notDict => exact Bool.noConfusion h
  | dict cls ob =>
  cases cls with
  | none => exact Bool.noConfusion h
  | some cv =>
  cases cv with
  | other => exact Bool.noConfusion h
  | str clsv =>
  cases ob with
  | none => exact Bool.noConfusion h
  | some obv =>
  cases obv with
  | some _ => exact Bool.noConfusion h
  | none =>
  cases v with
  | other => exact Bool.noConfusion h
  | str s =>
  simp only [Bool.and_eq_true, bne_iff_ne] at h
  obtain ⟨⟨hdot, hxor⟩, htgt⟩ := h
  unfold entryCheck
  simp only [hl, hm, hin, hslot]
  rw [if_neg (by simp [hdot])]
  by_cases hmh : loadedMem t "hardware" (splitHead s) = true
  · have hml : loadedMem t "logic" (splitHead s) = false := by
      cases hx : loadedMem t "logic" (splitHead s) with
      | false => rfl
      | true => rw [hmh, hx] at hxor; exact absurd rfl hxor
    rw [if_neg (by simp [hmh, hml]), if_pos hmh]
    have htb : targetBaseOf t (CVal.str s) = "hardware" := by
      unfold targetBaseOf destModOf
      rw [if_pos hmh]
    rw [htb] at htgt
    cases hdl : t.loaded "hardware" with
    | none => simp only [hdl] at htgt; exact Bool.noConfusion htgt
    | some dtbl =>
    simp only [hdl] at htgt
    cases hdm : dget dtbl (splitHead s) with
    | none => simp only [hdm] at htgt; exact Bool.noConfusion htgt
    | some dlm =>
    simp only [hdm] at htgt
    cases hout : dlm.outConns with
    | none => simp only [hout] at htgt; exact Bool.noConfusion htgt
    | some outputs =>
    simp only [hout] at htgt
    cases hoc : dget outputs (splitSecond s) with
    | none => simp only [hoc] at htgt; exact Bool.noConfusion htgt
    | some oslot =>
    simp only [hoc] at htgt
    cases oslot with
    | notDict => exact Bool.noConfusion htgt
    | dict ocls =>
    cases ocls with
    | none => exact Bool.noConfusion htgt
    | some ocv =>
    cases ocv with
    | other => exact Bool.noConfusion htgt
    | str _ =>
      unfold checkOut
      simp only [hdl, hdm, hout, hoc, htb, destModOf, destConOf]
  · have hmh2 : loadedMem t "hardware" (splitHead s) = false := by
      simpa using hmh
    have hml : loadedMem t "logic" (splitHead s) = true := by
      cases hx : loadedMem t "logic" (splitHead s) with
      | true => rfl
      | false => rw [hmh2, hx] at hxor; exact absurd rfl hxor
    rw [if_neg (by simp [hmh2]), if_neg (by simp [hmh2]), if_pos hml]
    have htb : targetBaseOf t (CVal.str s) = "logic" := by
      unfold targetBaseOf destModOf
      rw [if_neg (by simp [hmh2])]
    rw [htb] at htgt
    cases hdl : t.loaded "logic" with
    | none => simp only [hdl] at htgt; exact Bool.noConfusion htgt
    | some dtbl =>
    simp only [hdl] at htgt
    cases hdm : dget dtbl (splitHead s) with
    | none => simp only [hdm] at htgt; exact Bool.noConfusion htgt
    | some dlm =>
    simp only [hdm] at htgt
    cases hout : dlm.outConns with
    | none => simp only [hout] at htgt; exact Bool.noConfusion htgt
    | some outputs =>
    simp only [hout] at htgt
    cases hoc : dget outputs (splitSecond s) with
    | none => simp only [hoc] at htgt; exact Bool.noConfusion htgt
    | some oslot =>
    simp only [hoc] at htgt
    cases oslot with
    | notDict => exact Bool.noConfusion htgt
    | dict ocls =>
    cases ocls with
    | none => exact Bool.noConfusion htgt
    | some ocv =>
    cases ocv with
    | other => exact Bool.noConfusion htgt
    | str _ =>
      unfold checkOut
      simp only [hdl, hdm, hout, hoc, htb, destModOf, destConOf]

/-- Processing a prefix of entries that all pass their checks: the loop
commutes with list append, later checks are unaffected, untouched connector
slots keep their values, and each processed entry ends up bound to its
resolved target. -/
theorem processEntries_all_ok (base mkey : String) :
    ∀ (pre : List (String × CVal)) (t : Tree) (log : List ConnLog),
    (pre.map Prod.fst).Nodup →
    (∀ e ∈ pre, ∃ db dm dc, entryCheck t base mkey e.1 e.2 = .ok (db, dm, dc)) →
    (∀ rest, processEntries t base mkey log (pre ++ rest)
        = processEntries (processEntries t base mkey log pre).1 base mkey
            (processEntries t base mkey log pre).2 rest) ∧
    (∀ c' v', c' ∉ pre.map Prod.fst →
        entryCheck (processEntries t base mkey log pre).1 base mkey c' v'
          = entryCheck t base mkey c' v') ∧
    (∀ b' m' c', (b' ≠ base ∨ m' ≠ mkey ∨ c' ∉ pre.map Prod.fst) →
        connObj (processEntries t base mkey log pre).1 b' m' c'
          = connObj t b' m' c') ∧
    (∀ e ∈ pre, ∀ db dm dc, entryCheck t base mkey e.1 e.2 = .ok (db, dm, dc) →
        connObj (processEntries t base mkey log pre).1 base mkey e.1
          = some (some (db, dm))) := by
  intro pre
  induction pre with
  | nil =>
    intro t log _ _
    refine ⟨fun rest => rfl, fun c' v' _ => rfl, fun b' m' c' _ => rfl, ?_⟩
    intro e he
    exact absurd he (List.not_mem_nil e)
  | cons ev rest ih =>
    intro t log hnd hok
    obtain ⟨c, v⟩ := ev
    obtain ⟨db, dm, dc, hch⟩ := hok (c, v) (List.mem_cons_self _ _)
    have hstep : ∀ (l2 : List (String × CVal)) (lg : List ConnLog),
        processEntries t base mkey lg ((c, v) :: l2)
          = processEntries (bindConn t base mkey c (db, dm)) base mkey
              (lg ++ [ConnLog.connected c db dm dc]) l2 := by
      intro l2 lg
      rw [processEntries, hch]
    simp only [List.map_cons, List.nodup_cons] at hnd
    have hcnotin : c ∉ rest.map Prod.fst := hnd.1
    have hok2 : ∀ e ∈ rest, ∃ db2 dm2 dc2,
        entryCheck (bindConn t base mkey c (db, dm)) base mkey e.1 e.2
          = .ok (db2, dm2, dc2) := by
      intro e he
      obtain ⟨db2, dm2, dc2, hch2⟩ := hok e (List.mem_cons_of_mem _ he)
      have hne : e.1 ≠ c := by
        intro hx
        exact hcnotin (hx ▸ List.mem_map_of_mem Prod.fst he)
      exact ⟨db2, dm2, dc2, by rw [entryCheck_bindConn t base mkey c _ e.1 e.2 hne, hch2]⟩
    obtain ⟨IH1, IH2, IH3, IH4⟩ :=
      ih (bindConn t base mkey c (db, dm)) (log ++ [ConnLog.connected c db dm dc])
        hnd.2 hok2
    obtain ⟨tbl, lm, ci, clsv, s, hl, hm, hin, hslot, hv⟩ := entryCheck_ok_elim hch
    refine ⟨?_, ?_, ?_, ?_⟩
    · intro rest2
      rw [List.cons_append, hstep, hstep, IH1]
    · intro c' v' hc'
      simp only [List.map_cons, List.mem_cons] at hc'
      push_neg at hc'
      rw [hstep, IH2 c' v' hc'.2, entryCheck_bindConn t base mkey c _ c' v' hc'.1]
    · intro b' m' c' hd
      have hd2 : b' ≠ base ∨ m' ≠ mkey ∨ c' ∉ rest.map Prod.fst := by
        rcases hd with hd | hd | hd
        · exact Or.inl hd
        · exact Or.inr (Or.inl hd)
        · simp only [List.map_cons, List.mem_cons] at hd
          push_neg at hd
          exact Or.inr (Or.inr hd.2)
      have hdbind : ¬ (b' = base ∧ m' = mkey ∧ c' = c) := by
        rcases hd with hd | hd | hd
        · intro hx; exact hd hx.1
        · intro hx; exact hd hx.2.1
        · simp only [List.map_cons, List.mem_cons] at hd
          push_neg at hd
          intro hx
          exact hd.1 hx.2.2
      rw [hstep, IH3 b' m' c' hd2, connObj_bindConn_ne t base mkey c _ b' m' c' hdbind]
    · intro e he db2 dm2 dc2 hch2
      rcases List.mem_cons.mp he with heq | he
      · rw [heq] at hch2 ⊢
        rw [hch] at hch2
        have h3 := Except.ok.inj hch2
        simp only [Prod.mk.injEq] at h3
        rw [hstep, IH3 base mkey c (Or.inr (Or.inr hcnotin)),
          connObj_bindConn_self (db, dm) hl hm hin hslot, h3.1, h3.2.1]
      · have hne : e.1 ≠ c := by
          intro hx
          exact hcnotin (hx ▸ List.mem_map_of_mem Prod.fst he)
        rw [hstep]
        exact IH4 e he db2 dm2 dc2
          (by rw [entryCheck_bindConn t base mkey c _ e.1 e.2 hne, hch2])

/-- No call of the connection loop ever overwrites an already-bound
connector object. -/
theorem processEntries_preserves (base mkey : String) :
    ∀ (entries : List (String × CVal)) (t : Tree) (log : List ConnLog)
      (b' m' c' : String) (x : String × String),
    connObj t b' m' c' = some (some x) →
    connObj (processEntries t base mkey log entries).1 b' m' c' = some (some x) := by
  intro entries
  induction entries with
  | nil =>
    intro t log b' m' c' x h
    exact h
  | cons ev rest ih =>
    intro t log b' m' c' x h
    obtain ⟨c, v⟩ := ev
    cases hch : entryCheck t base mkey c v with
    | error e =>
      rw [processEntries, hch]
      exact h
    | ok trip =>
      obtain ⟨db, dm, dc⟩ := trip
      rw [processEntries, hch]
      apply ih
      obtain ⟨tbl, lm, ci, clsv, s, hl, hm, hin, hslot, hv⟩ := entryCheck_ok_elim hch
      by_cases hsame : b' = base ∧ m' = mkey ∧ c' = c
      · obtain ⟨hb1, hb2, hb3⟩ := hsame
        rw [hb1, hb2, hb3] at h
        have hnone : connObj t base mkey c = some none := by
          simp only [connObj, hl, hm, hin, hslot]
        rw [hnone] at h
        exact absurd (Option.some.inj h) (fun hx => Option.noConfusion hx)
      · rw [connObj_bindConn_ne t base mkey c (db, dm) b' m' c' hsame]
        exact h

theorem connObj_some_elim {t : Tree} {b m c : String}
    {o : Option (String × String)} (h : connObj t b m c = some o) :
    ∃ tbl lm ci cls, t.loaded b = some tbl ∧ dget tbl m = some lm ∧
      lm.inConns = some ci ∧ dget ci c = some (InSlot.dict cls (some o)) := by
  unfold connObj at h
  cases hl : t.loaded b with
  | none => simp only [hl] at h; exact Option.noConfusion h
  | some tbl =>
  simp only [hl] at h
  cases hm : dget tbl m with
  | none => simp only [hm] at h; exact Option.noConfusion h
  | some lm =>
  simp only [hm] at h
  cases hin : lm.inConns with
  | none => simp only [hin] at h; exact Option.noConfusion h
  | some ci =>
  simp only [hin] at h
  cases hslot : dget ci c with
  | none => simp only [hslot] at h; exact Option.noConfusion h
  | some slot =>
  simp only [hslot] at h
  cases slot with
  | notDict => exact Option.noConfusion h
  | dict cls ob =>
    have h2 : ob = some o := h
    exact ⟨tbl, lm, ci, cls, rfl, hm, hin, by rw [hslot, h2]⟩

theorem connectModule_run {t : Tree} {base mkey : String}
    {dtbl : List (String × DefinedMod)} {thismodule : DefinedMod}
    {tbl : List (String × LoadedMod)} {lm : LoadedMod}
    {ci : List (String × InSlot)} {entries : List (String × CVal)}
    (hdef : t.defined base = some dtbl)
    (hdm : dget dtbl mkey = some thismodule)
    (hhk : thismodule.hasModuleKey = true)
    (hcc : thismodule.connect = some (ConnCfg.dict entries))
    (hl : t.loaded base = some tbl)
    (hm : dget tbl mkey = some lm)
    (hin : lm.inConns = some ci) :
    connectModule t base mkey = .ok (processEntries t base mkey [] entries) := by
  have hmem : dmem tbl mkey = true := dmem_of_dget_some hm
  simp only [connectModule, hdef, hdm, hl, hmem, hm, hin, hhk, hcc, not_true,
    if_false, ite_false]

/-- Claim C8: for every well-formed connect entry `c : v` (the connecting
module loaded with `c` declared as an unbound string-class IN connector, `v`
a dotted string whose target name is loaded in exactly one of
hardware/logic and declares the requested string-class OUT connector),
`connectModule` succeeds and sets the IN connector's object to exactly the
loaded target module instance — the coordinates of the resolved target in
the loaded-module tree. -/
theorem connectModule_binds (t : Tree) (base mkey : String)
    (dtbl : List (String × DefinedMod)) (thismodule : DefinedMod)
    (entries : List (String × CVal))
    (hdef : t.defined base = some dtbl)
    (hdm : dget dtbl mkey = some thismodule)
    (hhk : thismodule.hasModuleKey = true)
    (hcc : thismodule.connect = some (ConnCfg.dict entries))
    (hnd : (entries.map Prod.fst).Nodup)
    (hwf : ∀ e ∈ entries, entryWellFormed t base mkey e.1 e.2 = true)
    (c : String) (v : CVal) (hev : (c, v) ∈ entries) :
    ∃ res, connectModule t base mkey = .ok res ∧
      connObj res.1 base mkey c
        = some (some (targetBaseOf t v, destModOf v)) := by
  have hch : entryCheck t base mkey c v
      = .ok (targetBaseOf t v, destModOf v, destConOf v) :=
    entryCheck_of_wellFormed (hwf (c, v) hev)
  obtain ⟨tbl, lm, ci, cls, s, hl, hm, hin, _, _⟩ := entryCheck_ok_elim hch
  have hrun := connectModule_run hdef hdm hhk hcc hl hm hin
  have hok : ∀ e ∈ entries, ∃ db dm dc,
      entryCheck t base mkey e.1 e.2 = .ok (db, dm, dc) := by
    intro e he
    exact ⟨targetBaseOf t e.2, destModOf e.2, destConOf e.2,
      entryCheck_of_wellFormed (hwf e he)⟩
  obtain ⟨_, _, _, h4⟩ := processEntries_all_ok base mkey entries t [] hnd hok
  exact ⟨processEntries t base mkey [] entries, hrun,
    h4 (c, v) hev (targetBaseOf t v) (destModOf v) (destConOf v) hch⟩

theorem connectModule_binds_witness :
    ∃ res, connectModule c8Tree "gui" "g" = .ok res ∧
      connObj res.1 "gui" "g" "src"
        = some (some (targetBaseOf c8Tree (CVal.str "hw1.out1"),
                      destModOf (CVal.str "hw1.out1"))) := by
  refine connectModule_binds c8Tree "gui" "g" [("g", guiDefOne)] guiDefOne
    [("src", CVal.str "hw1.out1")] rfl rfl rfl rfl (by simp) ?_ "src"
    (CVal.str "hw1.out1") (by simp)
  intro e he
  simp only [List.mem_singleton] at he
  rw [he]
  with_unfolding_all rfl

theorem connectModule_tree_cases (t : Tree) (base mkey : String) :
    resTree (connectModule t base mkey) = t ∨
    ∃ entries, connectModule t base mkey
      = .ok (processEntries t base mkey [] entries) := by
  unfold connectModule
  repeat' first
    | exact Or.inl rfl
    | exact Or.inr ⟨_, rfl⟩
    | split

theorem connectModule_preserves_bound (t : Tree) (base mkey b m c : String)
    (x : String × String) (h : connObj t b m c = some (some x)) :
    connObj (resTree (connectModule t base mkey)) b m c = some (some x) := by
  rcases connectModule_tree_cases t base mkey with hc | ⟨entries, hc⟩
  · rw [hc]; exact h
  · rw [hc]
    exact processEntries_preserves base mkey entries t [] b m c x h

theorem configureModule_tree_cases (t : Tree) (mo : PyModuleObj)
    (bn cn inm : String) (inst : LoadedMod) (cr : Bool) :
    cfgTreeOf (configureModule t mo bn cn inm inst cr) = t ∨
    ∃ tbl, t.loaded bn = some tbl ∧ ¬ dmem tbl inm = true ∧
      cfgTreeOf (configureModule t mo bn cn inm inst cr)
        = t.setLoaded bn (dset tbl inm inst) := by
  unfold configureModule
  by_cases hb1 : bn = "hardware" ∨ bn = "logic" ∨ bn = "gui"
  · rw [if_pos hb1]
    cases hl : t.loaded bn with
    | none => exact Or.inl rfl
    | some tbl =>
      simp only []
      by_cases hmem : dmem tbl inm = true
      · rw [if_pos hmem]
        exact Or.inl rfl
      · rw [if_neg hmem]
        cases dget mo.classes cn with
        | none => exact Or.inl rfl
        | some isBase =>
          simp only []
          by_cases hib : isBase = true
          · rw [if_neg (not_not_intro hib)]
            by_cases hcr : cr = true
            · rw [if_pos hcr]
              exact Or.inl rfl
            · rw [if_neg hcr]
              exact Or.inr ⟨tbl, rfl, hmem, rfl⟩
          · rw [if_pos hib]
            exact Or.inl rfl
  · rw [if_neg hb1]
    exact Or.inl rfl

theorem configureModule_preserves_bound (t : Tree) (mo : PyModuleObj)
    (bn cn inm : String) (inst : LoadedMod) (cr : Bool) (b m c : String)
    (x : String × String) (h : connObj t b m c = some (some x)) :
    connObj (cfgTreeOf (configureModule t mo bn cn inm inst cr)) b m c
      = some (some x) := by
  rcases configureModule_tree_cases t mo bn cn inm inst cr with
    hc | ⟨tbl, hl, hmem, hc⟩
  · rw [hc]; exact h
  · rw [hc]
    obtain ⟨tbl0, lm, ci, cls, hl0, hm0, hin0, hslot0⟩ := connObj_some_elim h
    by_cases hb : b = bn
    · subst hb
      rw [hl] at hl0
      have htbl : tbl0 = tbl := (Option.some.inj hl0).symm
      subst htbl
      have hmne : m ≠ inm := by
        intro hx
        exact hmem (hx ▸ dmem_of_dget_some hm0)
      simp only [connObj, loaded_setLoaded_self (dset tbl0 inm inst) hl,
        dget_dset_ne tbl0 inm m inst hmne, hm0, hin0, hslot0]
    · simp only [connObj, loaded_setLoaded_ne (dset tbl inm inst) hb,
        hl0, hm0, hin0, hslot0]

/-- Claim C9: every IN connector is bound at most once.  (1) `connectModule`
never overwrites a connector object that is already non-None, on any of its
paths; (2) a `connectModule` call whose first connect entry targets an
already-bound connector is rejected with a logged error and returns the
tree unchanged — the existing binding survives; (3) `configureModule`, the
only other core operation that writes the loaded-module tree, also never
overwrites a non-None connector object. -/
theorem connector_bound_once :
    (∀ t base mkey b m c x, connObj t b m c = some (some x) →
        connObj (resTree (connectModule t base mkey)) b m c = some (some x)) ∧
    (∀ t base mkey dtbl thismodule c v rest x,
        t.defined base = some dtbl →
        dget dtbl mkey = some thismodule →
        thismodule.hasModuleKey = true →
        thismodule.connect = some (ConnCfg.dict ((c, v) :: rest)) →
        connObj t base mkey c = some (some x) →
        ∃ e, connectModule t base mkey = .ok (t, [ConnLog.err e])) ∧
    (∀ t mo bn cn inm inst cr b m c x, connObj t b m c = some (some x) →
        connObj (cfgTreeOf (configureModule t mo bn cn inm inst cr)) b m c
          = some (some x)) := by
  refine ⟨fun t base mkey b m c x h =>
      connectModule_preserves_bound t base mkey b m c x h, ?_,
    fun t mo bn cn inm inst cr b m c x h =>
      configureModule_preserves_bound t mo bn cn inm inst cr b m c x h⟩
  intro t base mkey dtbl thismodule c v rest x hdef hdm hhk hcc hbound
  obtain ⟨tbl, lm, ci, cls, hl, hm, hin, hslot⟩ := connObj_some_elim hbound
  have hrun := connectModule_run hdef hdm hhk hcc hl hm hin
  have hche : ∃ e, entryCheck t base mkey c v = .error e := by
    cases cls with
    | none =>
      exact ⟨ConnErr.noClassKey, by simp only [entryCheck, hl, hm, hin, hslot]⟩
    | some cv =>
      cases cv with
      | other =>
        exact ⟨ConnErr.classNotStr, by simp only [entryCheck, hl, hm, hin, hslot]⟩
      | str s =>
        exact ⟨ConnErr.alreadyConnected,
          by simp only [entryCheck, hl, hm, hin, hslot]⟩
  obtain ⟨e, hche⟩ := hche
  refine ⟨e, ?_⟩
  rw [hrun, processEntries, hche]
  rfl

theorem connector_bound_once_witness :
    (∃ e, connectModule c9Tree "gui" "g" = .ok (c9Tree, [ConnLog.err e])) ∧
    connObj (resTree (connectModule c9Tree "gui" "g")) "gui" "g" "src"
      = some (some ("hardware", "hw1")) ∧
    connObj (cfgTreeOf (configureModule c9Tree pyModEx "gui" "C" "g2"
        deactivatedMod false)) "gui" "g" "src"
      = some (some ("hardware", "hw1")) := by
  obtain ⟨h1, h2, h3⟩ := connector_bound_once
  exact ⟨h2 c9Tree "gui" "g" [("g", guiDefOne)] guiDefOne "src"
      (CVal.str "hw1.out1") [] ("hardware", "hw1") rfl rfl rfl rfl rfl,
    h1 c9Tree "gui" "g" "gui" "g" "src" ("hardware", "hw1") rfl,
    h3 c9Tree pyModEx "gui" "C" "g2" deactivatedMod false "gui" "g" "src"
      ("hardware", "hw1") rfl⟩

/-- Claim C10: when a connect entry fails a validation check inside
`connectModule`, the call returns at that entry: the result is the state
after the preceding (successful) entries with the error appended to the
log, the failing entry's connector object is left exactly as it was, and
every connect entry not yet processed is also left untouched. -/
theorem connectModule_early_return (t : Tree) (base mkey : String)
    (dtbl : List (String × DefinedMod)) (thismodule : DefinedMod)
    (tbl : List (String × LoadedMod)) (lm : LoadedMod)
    (ci : List (String × InSlot))
    (pre post : List (String × CVal)) (c : String) (v : CVal) (err : ConnErr)
    (hdef : t.defined base = some dtbl)
    (hdm : dget dtbl mkey = some thismodule)
    (hhk : thismodule.hasModuleKey = true)
    (hcc : thismodule.connect = some (ConnCfg.dict (pre ++ (c, v) :: post)))
    (hl : t.loaded base = some tbl)
    (hm : dget tbl mkey = some lm)
    (hin : lm.inConns = some ci)
    (hnd : ((pre ++ (c, v) :: post).map Prod.fst).Nodup)
    (hpre : ∀ e ∈ pre, ∃ db dm dc,
        entryCheck t base mkey e.1 e.2 = .ok (db, dm, dc))
    (hfail : entryCheck t base mkey c v = .error err) :
    connectModule t base mkey
      = .ok ((processEntries t base mkey [] pre).1,
             (processEntries t base mkey [] pre).2 ++ [ConnLog.err err]) ∧
    connObj (processEntries t base mkey [] pre).1 base mkey c
      = connObj t base mkey c ∧
    ∀ e ∈ post, connObj (processEntries t base mkey [] pre).1 base mkey e.1
      = connObj t base mkey e.1 := by
  have hrun := connectModule_run hdef hdm hhk hcc hl hm hin
  rw [List.map_append, List.nodup_append] at hnd
  obtain ⟨hnd1, _, hdisj⟩ := hnd
  have hcpre : c ∉ pre.map Prod.fst := fun hx =>
    hdisj hx (by rw [List.map_cons]; exact List.mem_cons_self _ _)
  obtain ⟨H1, H2, H3, _⟩ := processEntries_all_ok base mkey pre t [] hnd1 hpre
  have hsplit := H1 ((c, v) :: post)
  have hch : entryCheck (processEntries t base mkey [] pre).1 base mkey c v
      = .error err := by
    rw [H2 c v hcpre, hfail]
  refine ⟨?_, ?_, ?_⟩
  · rw [hrun, hsplit, processEntries, hch]
  · exact H3 base mkey c (Or.inr (Or.inr hcpre))
  · intro e he
    have hepre : e.1 ∉ pre.map Prod.fst := fun hx =>
      hdisj hx (by
        rw [List.map_cons]
        exact List.mem_cons_of_mem _ (List.mem_map_of_mem _ he))
    exact H3 base mkey e.1 (Or.inr (Or.inr hepre))

theorem connectModule_early_return_witness :
    connectModule c10Tree "gui" "g"
      = .ok ((processEntries c10Tree "gui" "g" [] []).1,
             (processEntries c10Tree "gui" "g" [] []).2
               ++ [ConnLog.err ConnErr.inConnUndeclared]) ∧
    connObj (processEntries c10Tree "gui" "g" [] []).1 "gui" "g" "bad"
      = connObj c10Tree "gui" "g" "bad" ∧
    connObj (processEntries c10Tree "gui" "g" [] []).1 "gui" "g" "src"
      = connObj c10Tree "gui" "g" "src" := by
  obtain ⟨h1, h2, h3⟩ := connectModule_early_return c10Tree "gui" "g"
    [("g", guiDefBad)] guiDefBad [("g", guiInMod)] guiInMod
    [("src", InSlot.dict (some (CVal.str "HwIface")) (some none))]
    [] [("src", CVal.str "hw1.out1")] "bad" (CVal.str "hw1.out1")
    ConnErr.inConnUndeclared rfl rfl rfl rfl rfl rfl rfl (by simp)
    (fun e he => absurd he (List.not_mem_nil e)) rfl
  exact ⟨h1, h2, h3 ("src", CVal.str "hw1.out1") (List.mem_singleton.mpr rfl)⟩

end Qudi
